import Mathlib

/-!
Verification development for the unified-diff parser of `src/diff.rs`.

The Rust source builds a pest parser from the grammar file `diff.pest` and
walks the resulting token tree (`Diff::parse`, `parse_diff`,
`parse_diff_header`, `parse_hunk`, `parse_range`), producing the data model
`Diff` / `Delta` / `Hunk` together with the rendering operations
(`Display` for `Diff`/`Delta`/`Hunk`, `Hunk::display_header`,
`Hunk::header`, `Hunk::format_patch`).

Texts are embedded as `List Char`.  Rust panics (`expect`, `unwrap`,
`panic!`) and pest parse failures are both embedded as `Except.error`.
Machine integers (`u32`) are embedded as `Nat` with the explicit
`< 2 ^ 32` bound where Rust's `str::parse::<u32>` checks for overflow.
-/

set_option maxHeartbeats 1000000

namespace GituDiff

/-- Numeric value of a decimal digit character. -/
def charVal (c : Char) : Nat := c.toNat - 48

/-- Decimal value of a digit span, most significant digit first. -/
def digitsToNat (s : List Char) : Nat := s.foldl (fun a c => a * 10 + charVal c) 0

/-- Fuelled decimal printer (helper for `natToStr`). -/
def natToStrF : Nat → Nat → List Char
  | 0, _ => []
  | f + 1, n => if n < 10 then [Nat.digitChar n] else natToStrF f (n / 10) ++ [Nat.digitChar (n % 10)]

/-- Decimal rendering of a natural number, as Rust's `Display` for `u32`. -/
def natToStr (n : Nat) : List Char := natToStrF (n + 1) n

/-- Remove one optional leading plus sign, as Rust's unsigned `from_str`
accepts. -/
def stripPlus : List Char → List Char
  | '+' :: r => r
  | s => s

/-- Model of Rust `str::parse::<u32>`: an optional leading plus sign, then a
nonempty run of decimal digits whose value fits in 32 bits. -/
def parseU32 (s : List Char) : Option Nat :=
  if (stripPlus s).isEmpty then none
  else if (stripPlus s).all Char.isDigit then
    if digitsToNat (stripPlus s) < 4294967296 then some (digitsToNat (stripPlus s)) else none
  else none

/-- Boolean prefix test on character lists. -/
def startsWith (p cs : List Char) : Bool := p.isPrefixOf cs

/-- Concatenation of a list of lists. -/
def listJoin {α : Type} : List (List α) → List α
  | [] => []
  | l :: ls => l ++ listJoin ls

/-- Split off the first line of a text; the terminator is included in the
line when present. -/
def takeLineIncl (cs : List Char) : List Char × List Char :=
  match cs.dropWhile (fun c => !(c == '\n')) with
  | _ :: rest => (cs.takeWhile (fun c => !(c == '\n')) ++ ['\n'], rest)
  | [] => (cs.takeWhile (fun c => !(c == '\n')), [])

/-- Fuelled line scanner: consume whole lines until the remaining text
satisfies `stop` (or the text is exhausted). -/
def takeLinesUntilF (stop : List Char → Bool) : Nat → List Char → List Char × List Char
  | 0, cs => ([], cs)
  | f + 1, cs =>
    if cs.isEmpty then ([], [])
    else if stop cs then ([], cs)
    else
      let p := takeLineIncl cs
      let q := takeLinesUntilF stop f p.2
      (p.1 ++ q.1, q.2)

/-- Consume whole lines until the remaining text satisfies `stop`. -/
def takeLinesUntil (stop : List Char → Bool) (cs : List Char) : List Char × List Char :=
  takeLinesUntilF stop cs.length cs

/-- The closed set of grammar node kinds produced by the pest grammar
(`Rule` in the Rust source). -/
inductive Rule where
  | commit | diff | diff_header | old_file | new_file | header_extra
  | hunk | old_range | new_range | context | hunk_body | start | lines
deriving DecidableEq, Repr

/-- A pest token-tree node: its rule, its verbatim captured span
(`as_str`), and its children (`into_inner`). -/
inductive Pair where
  | mk (rule : Rule) (str : List Char) (inner : List Pair)

def Pair.rule : Pair → Rule | .mk r _ _ => r

def Pair.str : Pair → List Char | .mk _ s _ => s

def Pair.inner : Pair → List Pair | .mk _ _ i => i

def gitMarker : List Char := "diff --git".data

def oldMarker : List Char := "--- ".data

def newMarker : List Char := "+++ ".data

def hunkMarker : List Char := "@@ -".data

def plusSep : List Char := " +".data

def atClose : List Char := " @@".data

/-- Modelled from the spec: the grammar file `diff.pest` is not under `src/`;
rule `range = start ("," lines)?`, each numeric field a nonempty digit-only
captured span.  Following PEG semantics the optional part is skipped when it
does not match. -/
def matchRange (ru : Rule) (cs : List Char) : Option (Pair × List Char) :=
  let s := cs.takeWhile Char.isDigit
  let r1 := cs.dropWhile Char.isDigit
  if s.isEmpty then none
  else
    match r1 with
    | ',' :: r2 =>
      let ls := r2.takeWhile Char.isDigit
      if ls.isEmpty then some (Pair.mk ru s [Pair.mk .start s []], ',' :: r2)
      else
        some (Pair.mk ru (s ++ ',' :: ls) [Pair.mk .start s [], Pair.mk .lines ls []],
          r2.dropWhile Char.isDigit)
    | _ => some (Pair.mk ru s [Pair.mk .start s []], r1)

/-- Modelled from the spec: the grammar file `diff.pest` is not under `src/`;
the fixed part of rule `hunk_header = "@@ -" old_range " +" new_range " @@"`,
returning the two range nodes and the text after the closing marker. -/
def matchHunkHeader (cs : List Char) : Option (Pair × Pair × List Char) :=
  if startsWith hunkMarker cs then
    match matchRange .old_range (cs.drop 4) with
    | some (op, r2) =>
      if startsWith plusSep r2 then
        match matchRange .new_range (r2.drop 2) with
        | some (np, r4) =>
          if startsWith atClose r4 then some (op, np, r4.drop 3) else none
        | none => none
      else none
    | none => none
  else none

/-- Whether a text begins with a full hunk range header (used for the
structural anchoring of `hunk_body`). -/
def isHunkHeaderStart (cs : List Char) : Bool := (matchHunkHeader cs).isSome

/-- Modelled from the spec: `hunk_body` runs up to (but not including) the
next hunk header, the next diff header, or end of input, checked at line
starts. -/
def bodyStop (cs : List Char) : Bool := isHunkHeaderStart cs || startsWith gitMarker cs

/-- Modelled from the spec: rule `hunk = hunk_header hunk_body`, where the
header carries a verbatim `context` suffix up to the end of its line and the
body is a verbatim capture bounded by `bodyStop`. -/
def matchHunk (cs : List Char) : Option (Pair × List Char) :=
  match matchHunkHeader cs with
  | none => none
  | some (op, np, r5) =>
    let ctx := r5.takeWhile (fun c => !(c == '\n'))
    let r6 := r5.dropWhile (fun c => !(c == '\n'))
    let nlPart : List Char := if r6.isEmpty then [] else ['\n']
    let r7 := if r6.isEmpty then [] else r6.drop 1
    let bq := takeLinesUntil bodyStop r7
    some (Pair.mk .hunk
        (hunkMarker ++ op.str ++ plusSep ++ np.str ++ atClose ++ ctx ++ nlPart ++ bq.1)
        [op, np, Pair.mk .context ctx [], Pair.mk .hunk_body bq.1 []],
      bq.2)

/-- Fuelled `hunk*` loop (helper for `matchHunks`). -/
def matchHunksF : Nat → List Char → List Pair × List Char
  | 0, cs => ([], cs)
  | f + 1, cs =>
    match matchHunk cs with
    | none => ([], cs)
    | some (p, rest) =>
      let q := matchHunksF f rest
      (p :: q.1, q.2)

/-- Modelled from the spec: `hunk*`, matching hunks greedily. -/
def matchHunks (cs : List Char) : List Pair × List Char := matchHunksF cs.length cs

/-- Stop condition for `header_extra`: the old-file marker line. -/
def headerStop (cs : List Char) : Bool := startsWith oldMarker cs

/-- Modelled from the spec: rule `diff_header` — a "diff --git" line, zero or
more opaque metadata lines (`header_extra`), an old-file marker line and a
new-file marker line, the whole block captured verbatim while the two file
names are extracted from within it. -/
def matchDiffHeader (cs : List Char) : Option (Pair × List Char) :=
  if startsWith gitMarker cs then
    let gp := takeLineIncl cs
    let ep := takeLinesUntil headerStop gp.2
    if startsWith oldMarker ep.2 then
      let op := takeLineIncl ep.2
      if startsWith newMarker op.2 then
        let np := takeLineIncl op.2
        some (Pair.mk .diff_header (gp.1 ++ ep.1 ++ op.1 ++ np.1)
            [Pair.mk .header_extra ep.1 [],
             Pair.mk .old_file ((op.1.drop 4).takeWhile (fun c => !(c == '\n'))) [],
             Pair.mk .new_file ((np.1.drop 4).takeWhile (fun c => !(c == '\n'))) []],
          np.2)
      else none
    else none
  else none

/-- Modelled from the spec: rule `diff = diff_header hunk*`. -/
def matchDiff (cs : List Char) : Option (Pair × List Char) :=
  match matchDiffHeader cs with
  | none => none
  | some (hp, r1) =>
    let hq := matchHunks r1
    some (Pair.mk .diff (hp.str ++ listJoin (hq.1.map Pair.str)) (hp :: hq.1), hq.2)

/-- Fuelled `diff*` loop (helper for `matchDiffs`). -/
def matchDiffsF : Nat → List Char → List Pair × List Char
  | 0, cs => ([], cs)
  | f + 1, cs =>
    match matchDiff cs with
    | none => ([], cs)
    | some (p, rest) =>
      let q := matchDiffsF f rest
      (p :: q.1, q.2)

/-- Modelled from the spec: `diff*`, matching per-file blocks greedily. -/
def matchDiffs (cs : List Char) : List Pair × List Char := matchDiffsF cs.length cs

/-- Modelled from the spec: top rule `diffs = commit? diff*` over the whole
input — an optional single non-diff leading line (captured without its
terminator) followed by the per-file blocks; any unconsumed input is a fatal
syntax error. -/
def DiffParserParse (input : List Char) : Except String (List Pair) :=
  let c : Option Pair × List Char :=
    if startsWith gitMarker input || input.isEmpty then (none, input)
    else
      (some (Pair.mk .commit (input.takeWhile (fun c => !(c == '\n'))) []),
        (input.dropWhile (fun c => !(c == '\n'))).drop 1)
  let dq := matchDiffs c.2
  if dq.2.isEmpty then
    .ok ((match c.1 with | some p => [p] | none => []) ++ dq.1)
  else .error "SyntaxError"

/-- One contiguous changed region (struct `Hunk` in the Rust source). -/
structure Hunk where
  file_header : List Char
  old_file : List Char
  new_file : List Char
  old_start : Nat
  old_lines : Nat
  new_start : Nat
  new_lines : Nat
  header_suffix : List Char
  content : List Char
deriving DecidableEq, Repr

/-- One file's change description (struct `Delta` in the Rust source). -/
structure Delta where
  file_header : List Char
  old_file : List Char
  new_file : List Char
  hunks : List Hunk
deriving DecidableEq, Repr

/-- Top-level parse result (struct `Diff` in the Rust source). -/
structure Diff where
  commit : Option (List Char)
  deltas : List Delta
deriving DecidableEq, Repr

/-- Field loop of `parse_range`: mutable `start` / `lines` options updated
per child node; `expect` on a failed numeric conversion is an error. -/
def parse_range_fields : List Pair → Option Nat → Option Nat → Except String (Option Nat × Option Nat)
  | [], s, l => .ok (s, l)
  | f :: fs, s, l =>
    match f.rule with
    | .start =>
      match parseU32 f.str with
      | some v => parse_range_fields fs (some v) l
      | none => .error "Error parsing range start"
    | .lines =>
      match parseU32 f.str with
      | some v => parse_range_fields fs s (some v)
      | none => .error "Error parsing range lines"
    | _ => .error "No rule"

/-- `parse_range` from the Rust source: walk a range node's children and
unwrap both numbers. -/
def parse_range (p : Pair) : Except String (Nat × Nat) :=
  match parse_range_fields p.inner none none with
  | .error e => .error e
  | .ok (none, _) => .error "No range start"
  | .ok (_, none) => .error "No range lines"
  | .ok (some a, some b) => .ok (a, b)

/-- Field loop of `parse_hunk`. -/
def parse_hunk_fields : List Pair → Option (Nat × Nat) → Option (Nat × Nat) →
    Option (List Char) → Option (List Char) →
    Except String (Option (Nat × Nat) × Option (Nat × Nat) × Option (List Char) × Option (List Char))
  | [], a, b, c, d => .ok (a, b, c, d)
  | f :: fs, a, b, c, d =>
    match f.rule with
    | .old_range =>
      match parse_range f with
      | .ok v => parse_hunk_fields fs (some v) b c d
      | .error e => .error e
    | .new_range =>
      match parse_range f with
      | .ok v => parse_hunk_fields fs a (some v) c d
      | .error e => .error e
    | .context => parse_hunk_fields fs a b (some f.str) d
    | .hunk_body => parse_hunk_fields fs a b c (some f.str)
    | _ => .error "No rule"

/-- `parse_hunk` from the Rust source: build a `Hunk` from a hunk node,
copying the owning delta's header fields. -/
def parse_hunk (p : Pair) (file_header old_file new_file : List Char) : Except String Hunk :=
  match parse_hunk_fields p.inner none none none none with
  | .error e => .error e
  | .ok (some o, some n, some c, some b) =>
    .ok ⟨file_header, old_file, new_file, o.1, o.2, n.1, n.2, c, b⟩
  | .ok _ => .error "unwrap on None"

/-- Field loop of `parse_diff_header`. -/
def parse_diff_header_fields : List Pair → Option (List Char) → Option (List Char) →
    Except String (Option (List Char) × Option (List Char))
  | [], o, n => .ok (o, n)
  | f :: fs, o, n =>
    match f.rule with
    | .old_file => parse_diff_header_fields fs (some f.str) n
    | .new_file => parse_diff_header_fields fs o (some f.str)
    | .header_extra => parse_diff_header_fields fs o n
    | _ => .error "No rule"

/-- `parse_diff_header` from the Rust source: extract the two file names
from a diff-header node. -/
def parse_diff_header (p : Pair) : Except String (List Char × List Char) :=
  match parse_diff_header_fields p.inner none none with
  | .error e => .error e
  | .ok (some o, some n) => .ok (o, n)
  | .ok _ => .error "unwrap on None"

/-- Field loop of `parse_diff`: the header node sets the verbatim
`file_header` and the two file names; each hunk node appends one `Hunk`. -/
def parse_diff_fields : List Pair → Option (List Char) → Option (List Char) →
    Option (List Char) → List Hunk →
    Except String (Option (List Char) × Option (List Char) × Option (List Char) × List Hunk)
  | [], fh, o, n, hs => .ok (fh, o, n, hs)
  | f :: fs, fh, o, n, hs =>
    match f.rule with
    | .diff_header =>
      match parse_diff_header f with
      | .ok v => parse_diff_fields fs (some f.str) (some v.1) (some v.2) hs
      | .error e => .error e
    | .hunk =>
      match fh, o, n with
      | some fh', some o', some n' =>
        match parse_hunk f fh' o' n' with
        | .ok h => parse_diff_fields fs fh o n (hs ++ [h])
        | .error e => .error e
      | _, _, _ => .error "unwrap on None"
    | _ => .error "No rule"

/-- `parse_diff` from the Rust source: build a `Delta` from a diff node. -/
def parse_diff (p : Pair) : Except String Delta :=
  match parse_diff_fields p.inner none none none [] with
  | .error e => .error e
  | .ok (some fh, some o, some n, hs) => .ok ⟨fh, o, n, hs⟩
  | .ok _ => .error "unwrap on None"

/-- Top-level loop of `Diff::parse`: dispatch on commit / diff nodes. -/
def parse_top : List Pair → Option (List Char) → List Delta → Except String Diff
  | [], c, ds => .ok ⟨c, ds⟩
  | p :: ps, c, ds =>
    match p.rule with
    | .commit => parse_top ps (some p.str) ds
    | .diff =>
      match parse_diff p with
      | .ok d => parse_top ps c (ds ++ [d])
      | .error e => .error e
    | _ => .error "No rule"

/-- `Diff::parse` from the Rust source: run the pest parser over the input
(`expect` on a pest failure is an error) and walk the token tree. -/
def Diff.parse (input : List Char) : Except String Diff :=
  match DiffParserParse input with
  | .error e => .error e
  | .ok pairs => parse_top pairs none []

/-- `Hunk::display_header` from the Rust source: the canonical bare range
header, without the verbatim suffix. -/
def Hunk.display_header (h : Hunk) : List Char :=
  "@@ -".data ++ natToStr h.old_start ++ ",".data ++ natToStr h.old_lines ++
    " +".data ++ natToStr h.new_start ++ ",".data ++ natToStr h.new_lines ++ " @@".data

/-- `Hunk::header` from the Rust source: the range header followed by the
verbatim header suffix. -/
def Hunk.header (h : Hunk) : List Char := h.display_header ++ h.header_suffix

/-- `Hunk::format_patch` from the Rust source: the owning file header, the
full range header, a line terminator, then the verbatim hunk content. -/
def Hunk.format_patch (h : Hunk) : List Char := h.file_header ++ h.header ++ "\n".data ++ h.content

/-- `Display` for `Hunk` from the Rust source: the bare range header
(`display_header`, no suffix, no terminator) followed by the content. -/
def Hunk.displayString (h : Hunk) : List Char := h.display_header ++ h.content

/-- `Display` for `Delta` from the Rust source: the verbatim file header
followed by each hunk's rendering. -/
def Delta.displayString (d : Delta) : List Char :=
  d.file_header ++ listJoin (d.hunks.map Hunk.displayString)

/-- `Display` for `Diff` from the Rust source: the concatenation of each
delta's rendering (the commit line is not rendered). -/
def Diff.displayString (d : Diff) : List Char :=
  listJoin (d.deltas.map Delta.displayString)

/-- Structural facts the grammar guarantees about a range node: it holds a
nonempty digit-only `start` span and, when the comma form was present, a
nonempty digit-only `lines` span. -/
def GoodRange (ru : Rule) (p : Pair) : Prop :=
  (p = Pair.mk ru p.str [Pair.mk .start p.str []] ∧ p.str ≠ [] ∧ p.str.all Char.isDigit = true) ∨
  (∃ s ls, p = Pair.mk ru (s ++ ',' :: ls) [Pair.mk .start s [], Pair.mk .lines ls []] ∧
    s ≠ [] ∧ s.all Char.isDigit = true ∧ ls ≠ [] ∧ ls.all Char.isDigit = true)

/-- Structural facts the grammar guarantees about a hunk node: two good
range children, a newline-free context span, and a body span that rescans
to itself. -/
def GoodHunk (q : Pair) : Prop :=
  ∃ op np sctx sbody,
    q = Pair.mk .hunk q.str [op, np, Pair.mk .context sctx [], Pair.mk .hunk_body sbody []] ∧
    GoodRange .old_range op ∧ GoodRange .new_range np ∧
    (∀ c ∈ sctx, (c == '\n') = false) ∧
    takeLinesUntil bodyStop sbody = (sbody, [])

/-- Structural facts the grammar guarantees about a diff-header node. -/
def GoodHeaderShape (p : Pair) : Prop :=
  ∃ e o n, p = Pair.mk .diff_header p.str
    [Pair.mk .header_extra e [], Pair.mk .old_file o [], Pair.mk .new_file n []]

/-- Structural facts the grammar guarantees about a diff node: a header
child followed by hunk children whose spans concatenate to the node's span;
when hunks follow, the header block reparses before any continuation. -/
def GoodDiff (p : Pair) : Prop :=
  ∃ hp hqs,
    p = Pair.mk .diff (hp.str ++ listJoin (hqs.map Pair.str)) (hp :: hqs) ∧
    GoodHeaderShape hp ∧
    (∀ q ∈ hqs, GoodHunk q) ∧
    (hqs ≠ [] → ∀ X, matchDiffHeader (hp.str ++ X) = some (hp, X))

/-- Invariants of every `Hunk` produced by parsing, sufficient for its
standalone patch rendering to reparse to the same hunk. -/
def HunkWF (h : Hunk) : Prop :=
  h.old_start < 4294967296 ∧ h.old_lines < 4294967296 ∧
  h.new_start < 4294967296 ∧ h.new_lines < 4294967296 ∧
  (∀ c ∈ h.header_suffix, (c == '\n') = false) ∧
  takeLinesUntil bodyStop h.content = (h.content, []) ∧
  ∃ e, ∀ X, matchDiffHeader (h.file_header ++ X) =
    some (Pair.mk .diff_header h.file_header
      [Pair.mk .header_extra e [], Pair.mk .old_file h.old_file [],
        Pair.mk .new_file h.new_file []], X)

/-- All hunk nodes of a token tree, in order. -/
def hunkPairsOf (pairs : List Pair) : List Pair :=
  listJoin ((pairs.filter (fun p => p.rule == .diff)).map
    (fun p => p.inner.filter (fun q => q.rule == .hunk)))

/-- All range nodes of a token tree, in order. -/
def rangePairsOf (pairs : List Pair) : List Pair :=
  listJoin ((hunkPairsOf pairs).map
    (fun q => q.inner.filter (fun r => r.rule == .old_range || r.rule == .new_range)))

/-- The captured `start` span of a range node, when present. -/
def startSpan (r : Pair) : Option (List Char) :=
  (r.inner.find? (fun q => q.rule == .start)).map Pair.str

/-- The captured `lines` span of a range node, when present. -/
def linesSpan (r : Pair) : Option (List Char) :=
  (r.inner.find? (fun q => q.rule == .lines)).map Pair.str

/-- A default hunk value, used to name components of concrete parses. -/
def hunkDefault : Hunk := ⟨[], [], [], 0, 0, 0, 0, [], []⟩

/-- A default delta value, used to name components of concrete parses. -/
def deltaDefault : Delta := ⟨[], [], [], []⟩

/-- A one-delta, one-hunk diff text. -/
def exampleSimple : List Char :=
  ("diff --git a/f b/f\n--- a/f\n+++ b/f\n@@ -1,1 +1,1 @@\n-a\n+b\n").data

/-- A two-delta, two-hunks-each diff text (the spec's concrete scenario). -/
def exampleTwo : List Char :=
  ("diff --git a/x b/x\nindex 1111111..2222222 100644\n--- a/x\n+++ b/x\n" ++
   "@@ -1,2 +1,2 @@ fn one\n-a\n+b\n c\n" ++
   "@@ -5,1 +5,1 @@\n-d\n+e\n" ++
   "diff --git a/y b/y\n--- a/y\n+++ b/y\n" ++
   "@@ -3,1 +3,2 @@\n-f\n+g\n+h\n" ++
   "@@ -9,2 +10,2 @@ tail\n-i\n+j\n k\n").data

/-- A diff text with a leading commit line. -/
def exampleCommit : List Char :=
  ("deadbeef\ndiff --git a/x b/x\n--- a/x\n+++ b/x\n@@ -1,1 +1,1 @@\n-a\n+b\n").data

/-- A diff text whose single delta has a header block and no hunks. -/
def exampleNoHunk : List Char :=
  ("diff --git a/g b/g\nnew file mode 100644\n--- a/g\n+++ b/g\n").data

/-- A diff text with the spec's example range header. -/
def exampleC9 : List Char :=
  ("diff --git a/src/diff.rs b/src/diff.rs\n--- a/src/diff.rs\n+++ b/src/diff.rs\n" ++
   "@@ -37,13 +37,12 @@ impl Diff \x7b\n-x\n+y\n").data

/-- A malformed diff text: the hunk header misses its closing marker. -/
def exampleBad : List Char :=
  ("diff --git a/f b/f\n--- a/f\n+++ b/f\n@@ -1,1 +1,1\n-x\n").data

/-- A grammar-accepted diff text whose range start overflows a u32. -/
def exampleOverflow : List Char :=
  ("diff --git a/f b/f\n--- a/f\n+++ b/f\n@@ -4294967296,1 +1,1 @@\n-x\n").data

/-- The parsed diff of a text, defaulting to an empty diff on error. -/
def diffOf (cs : List Char) : Diff :=
  match Diff.parse cs with
  | .ok d => d
  | .error _ => ⟨none, []⟩

/-- The token tree of a text, defaulting to no tokens on error. -/
def pairsOf (cs : List Char) : List Pair :=
  match DiffParserParse cs with
  | .ok ps => ps
  | .error _ => []

/-- The i-th delta of a parsed text. -/
def deltaAt (cs : List Char) (i : Nat) : Delta := (diffOf cs).deltas.getD i deltaDefault

/-- The j-th hunk of the i-th delta of a parsed text. -/
def hunkAt (cs : List Char) (i j : Nat) : Hunk :=
  ((diffOf cs).deltas.getD i deltaDefault).hunks.getD j hunkDefault

/-- The rendering of the parsed one-hunk example. -/
def exampleSimpleRendered : List Char :=
  match (Diff.parse exampleSimple).map Diff.displayString with
  | .ok r => r
  | .error _ => []

theorem startsWith_iff {p cs : List Char} : startsWith p cs = true ↔ p <+: cs := by
  simp [startsWith, List.isPrefixOf_iff_prefix]

theorem startsWith_append (p r : List Char) : startsWith p (p ++ r) = true :=
  startsWith_iff.mpr (List.prefix_append p r)

theorem startsWith_eq_append {p cs : List Char} (h : startsWith p cs = true) :
    cs = p ++ cs.drop p.length := by
  obtain ⟨t, ht⟩ := startsWith_iff.mp h
  subst ht
  rw [List.drop_left]

theorem startsWith_mono {p s r : List Char} (h : startsWith p s = true) :
    startsWith p (s ++ r) = true := by
  exact startsWith_iff.mpr ((startsWith_iff.mp h).trans (List.prefix_append s r))

theorem startsWith_false_of_append {p s r : List Char} (h : startsWith p (s ++ r) = false) :
    startsWith p s = false := by
  by_contra hc
  have := startsWith_mono (p := p) (s := s) (r := r) (by simpa using hc)
  rw [h] at this
  exact Bool.false_ne_true this

theorem takeWhile_append_all {q : Char → Bool} {l r : List Char}
    (h : ∀ c ∈ l, q c = true) : (l ++ r).takeWhile q = l ++ r.takeWhile q := by
  induction l with
  | nil => simp
  | cons a t ih =>
    have ha : q a = true := h a (List.mem_cons_self a t)
    simp only [List.cons_append, List.takeWhile_cons, ha, if_true]
    rw [ih fun c hc => h c (List.mem_cons_of_mem a hc)]

theorem dropWhile_append_all {q : Char → Bool} {l r : List Char}
    (h : ∀ c ∈ l, q c = true) : (l ++ r).dropWhile q = r.dropWhile q := by
  induction l with
  | nil => simp
  | cons a t ih =>
    have ha : q a = true := h a (List.mem_cons_self a t)
    simp only [List.cons_append, List.dropWhile_cons, ha, if_true]
    exact ih fun c hc => h c (List.mem_cons_of_mem a hc)

theorem takeWhile_cons_neg {q : Char → Bool} {c : Char} (r : List Char) (h : q c = false) :
    (c :: r).takeWhile q = [] := by
  simp [List.takeWhile_cons, h]

theorem dropWhile_cons_neg {q : Char → Bool} {c : Char} (r : List Char) (h : q c = false) :
    (c :: r).dropWhile q = c :: r := by
  simp [List.dropWhile_cons, h]

theorem takeWhile_stable {q : Char → Bool} {l r : List Char}
    (hl : ∀ c ∈ l, q c = true) (hr : ∀ c ∈ r.take 1, q c = false) :
    (l ++ r).takeWhile q = l ∧ (l ++ r).dropWhile q = r := by
  constructor
  · rw [takeWhile_append_all hl]
    cases r with
    | nil => simp
    | cons a t => rw [takeWhile_cons_neg t (hr a (by simp))]; simp
  · rw [dropWhile_append_all hl]
    cases r with
    | nil => simp
    | cons a t => exact dropWhile_cons_neg t (hr a (by simp))

theorem mem_takeWhile_q {q : Char → Bool} {l : List Char} {c : Char}
    (h : c ∈ l.takeWhile q) : q c = true :=
  List.mem_takeWhile_imp h

theorem dropWhile_head_false {q : Char → Bool} {cs : List Char} {c : Char} {r : List Char}
    (h : cs.dropWhile q = c :: r) : q c = false := by
  induction cs with
  | nil => simp at h
  | cons a t ih =>
    by_cases ha : q a = true
    · rw [List.dropWhile_cons, if_pos ha] at h
      exact ih h
    · rw [List.dropWhile_cons, if_neg ha] at h
      cases h
      simpa using ha

theorem takeLineIncl_eq (cs : List Char) : (takeLineIncl cs).1 ++ (takeLineIncl cs).2 = cs := by
  unfold takeLineIncl
  rcases hd : cs.dropWhile (fun c => !(c == '\n')) with _ | ⟨c, rest⟩
  · simpa [hd] using List.takeWhile_append_dropWhile (p := fun c => !(c == '\n')) (l := cs)
  · have hc : c = '\n' := by
      have := dropWhile_head_false hd
      simpa using this
    subst hc
    have := List.takeWhile_append_dropWhile (p := fun c => !(c == '\n')) (l := cs)
    rw [hd] at this
    simpa using this

theorem takeLineIncl_cases (cs : List Char) :
    (∃ l, (takeLineIncl cs).1 = l ++ ['\n'] ∧ ∀ c ∈ l, (c == '\n') = false) ∨
      ((takeLineIncl cs).2 = [] ∧ ∀ c ∈ (takeLineIncl cs).1, (c == '\n') = false) := by
  unfold takeLineIncl
  rcases hd : cs.dropWhile (fun c => !(c == '\n')) with _ | ⟨c, rest⟩
  · right
    refine ⟨rfl, fun c hc => ?_⟩
    simpa using mem_takeWhile_q hc
  · left
    exact ⟨_, rfl, fun c hc => by simpa using mem_takeWhile_q hc⟩

theorem takeLineIncl_append {l r : List Char} (h : ∀ c ∈ l, (c == '\n') = false) :
    takeLineIncl (l ++ '\n' :: r) = (l ++ ['\n'], r) := by
  have hall : ∀ c ∈ l, (fun c => !(c == '\n')) c = true := fun c hc => by simp [h c hc]
  have hstep := takeWhile_stable (r := '\n' :: r) hall (by simp)
  unfold takeLineIncl
  rw [hstep.2, hstep.1]

theorem takeLineIncl_all {l : List Char} (h : ∀ c ∈ l, (c == '\n') = false) :
    takeLineIncl l = (l, []) := by
  have hall : ∀ c ∈ l, (fun c => !(c == '\n')) c = true := fun c hc => by simp [h c hc]
  have h1 : l.takeWhile (fun c => !(c == '\n')) = l := by
    simpa using takeWhile_append_all (r := []) hall
  have h2 : l.dropWhile (fun c => !(c == '\n')) = [] := by
    simpa using dropWhile_append_all (r := []) hall
  unfold takeLineIncl
  rw [h2, h1]

theorem takeLineIncl_ne_nil {cs : List Char} (h : cs ≠ []) : (takeLineIncl cs).1 ≠ [] := by
  rcases takeLineIncl_cases cs with ⟨l, hl, _⟩ | ⟨h2, _⟩
  · rw [hl]; simp
  · have := takeLineIncl_eq cs
    rw [h2, List.append_nil] at this
    rw [this]
    exact h

theorem takeLineIncl_length {cs : List Char} (h : cs ≠ []) :
    (takeLineIncl cs).2.length < cs.length := by
  have heq := congrArg List.length (takeLineIncl_eq cs)
  rw [List.length_append] at heq
  have hne := takeLineIncl_ne_nil h
  have hpos : 0 < (takeLineIncl cs).1.length := List.length_pos.mpr hne
  omega

theorem takeLineIncl_replay {cs ln rest : List Char} (h : takeLineIncl cs = (ln, rest))
    (X : List Char) (hX : rest ≠ [] ∨ X = []) : takeLineIncl (ln ++ X) = (ln, X) := by
  rcases takeLineIncl_cases cs with ⟨l, hl, hnl⟩ | ⟨h2, hnl⟩
  · have hl' : ln = l ++ ['\n'] := by rw [h] at hl; exact hl
    rw [hl', List.append_assoc]
    simpa using takeLineIncl_append (r := X) hnl
  · have h2' : rest = [] := by rw [h] at h2; exact h2
    have hnl' : ∀ c ∈ ln, (c == '\n') = false := by rw [h] at hnl; exact hnl
    rcases hX with hX | hX
    · exact absurd h2' hX
    · subst hX
      rw [List.append_nil]
      exact takeLineIncl_all hnl'

theorem startsWith_line {p : List Char} (hp : ∀ c ∈ p, (c == '\n') = false)
    (l' X : List Char) :
    startsWith p ((l' ++ ['\n']) ++ X) = startsWith p (l' ++ ['\n']) := by
  rcases hsw2 : startsWith p (l' ++ ['\n']) with _ | _
  · rcases hsw : startsWith p ((l' ++ ['\n']) ++ X) with _ | _
    · rfl
    · exfalso
      have hpre := startsWith_iff.mp hsw
      by_cases hlen : p.length ≤ l'.length + 1
      · have hlen' : p.length ≤ (l' ++ ['\n']).length := by simpa using hlen
        have htake : ((l' ++ ['\n']) ++ X).take p.length = (l' ++ ['\n']).take p.length :=
          List.take_append_of_le_length hlen'
        have hq : p <+: l' ++ ['\n'] := by
          rw [List.prefix_iff_eq_take, ← htake]
          exact List.prefix_iff_eq_take.mp hpre
        rw [startsWith_iff.mpr hq] at hsw2
        simp at hsw2
      · have hge : (l' ++ ['\n']).length ≤ p.length := by simp; omega
        have heq : p = (l' ++ ['\n']) ++ X.take (p.length - (l' ++ ['\n']).length) := by
          calc p = ((l' ++ ['\n']) ++ X).take p.length := List.prefix_iff_eq_take.mp hpre
            _ = (l' ++ ['\n']).take p.length ++ X.take (p.length - (l' ++ ['\n']).length) :=
              List.take_append_eq_append_take
            _ = (l' ++ ['\n']) ++ X.take (p.length - (l' ++ ['\n']).length) := by
              rw [List.take_of_length_le hge]
        have hnl : ('\n' : Char) ∈ p := by rw [heq]; simp
        have := hp '\n' hnl
        simp at this
  · exact startsWith_mono hsw2

theorem takeLinesUntilF_eq (stop : List Char → Bool) :
    ∀ (f : Nat) (cs : List Char),
      (takeLinesUntilF stop f cs).1 ++ (takeLinesUntilF stop f cs).2 = cs := by
  intro f
  induction f with
  | zero => intro cs; simp [takeLinesUntilF]
  | succ f ih =>
    intro cs
    by_cases hcs : cs.isEmpty
    · simp only [takeLinesUntilF, hcs, if_true]
      simpa using (List.isEmpty_iff.mp hcs).symm
    · by_cases hst : stop cs
      · simp [takeLinesUntilF, hcs, hst]
      · simp only [takeLinesUntilF, hcs, hst, if_false, Bool.false_eq_true]
        rw [List.append_assoc, ih (takeLineIncl cs).2, takeLineIncl_eq]

theorem takeLinesUntilF_congr (stop : List Char → Bool) :
    ∀ (f g : Nat) (cs : List Char), cs.length ≤ f → cs.length ≤ g →
      takeLinesUntilF stop f cs = takeLinesUntilF stop g cs := by
  intro f
  induction f with
  | zero =>
    intro g cs hf _
    have hcs : cs = [] := List.length_eq_zero.mp (Nat.le_zero.mp hf)
    subst hcs
    cases g with
    | zero => rfl
    | succ g => simp [takeLinesUntilF]
  | succ f ih =>
    intro g cs hf hg
    by_cases hcs : cs.isEmpty
    · have hcs' : cs = [] := List.isEmpty_iff.mp hcs
      subst hcs'
      cases g with
      | zero => rfl
      | succ g => simp [takeLinesUntilF]
    · have hcs' : cs ≠ [] := fun h => by simp [h] at hcs
      have hpos : 0 < cs.length := List.length_pos.mpr hcs'
      cases g with
      | zero => omega
      | succ g =>
        by_cases hst : stop cs
        · simp [takeLinesUntilF, hcs, hst]
        · simp only [takeLinesUntilF, hcs, hst, if_false, Bool.false_eq_true]
          have hlt := takeLineIncl_length hcs'
          rw [ih g (takeLineIncl cs).2 (by omega) (by omega)]

theorem takeLinesUntil_eq (stop : List Char → Bool) (cs : List Char) :
    (takeLinesUntil stop cs).1 ++ (takeLinesUntil stop cs).2 = cs :=
  takeLinesUntilF_eq stop cs.length cs

theorem takeLinesUntil_nil (stop : List Char → Bool) : takeLinesUntil stop [] = ([], []) := rfl

theorem takeLinesUntil_stop {stop : List Char → Bool} {cs : List Char}
    (h1 : cs ≠ []) (h2 : stop cs = true) : takeLinesUntil stop cs = ([], cs) := by
  have hpos : 0 < cs.length := List.length_pos.mpr h1
  unfold takeLinesUntil
  rcases hn : cs.length with _ | n
  · omega
  · have hcs : cs.isEmpty = false := by simp [List.isEmpty_iff, h1]
    simp [takeLinesUntilF, hcs, h2]

theorem takeLinesUntil_cons {stop : List Char → Bool} {cs : List Char}
    (h1 : cs ≠ []) (h2 : stop cs = false) :
    takeLinesUntil stop cs =
      ((takeLineIncl cs).1 ++ (takeLinesUntil stop (takeLineIncl cs).2).1,
        (takeLinesUntil stop (takeLineIncl cs).2).2) := by
  have hpos : 0 < cs.length := List.length_pos.mpr h1
  have hlt := takeLineIncl_length h1
  unfold takeLinesUntil
  rcases hn : cs.length with _ | n
  · omega
  · have hcs : cs.isEmpty = false := by simp [List.isEmpty_iff, h1]
    simp only [takeLinesUntilF, hcs, h2, if_false, Bool.false_eq_true]
    rw [takeLinesUntilF_congr stop n (takeLineIncl cs).2.length (takeLineIncl cs).2 (by omega)
      (Nat.le_refl _)]

theorem takeLinesUntil_replay {stop : List Char → Bool}
    (hline : ∀ l X, stop ((l ++ ['\n']) ++ X) = stop (l ++ ['\n'])) :
    ∀ (n : Nat) (cs b r : List Char), cs.length ≤ n → takeLinesUntil stop cs = (b, r) →
      takeLinesUntil stop b = (b, []) ∧
      (r ≠ [] → ∀ r', r' ≠ [] → stop r' = true → takeLinesUntil stop (b ++ r') = (b, r')) := by
  intro n
  induction n with
  | zero =>
    intro cs b r hf h
    have hcs : cs = [] := List.length_eq_zero.mp (Nat.le_zero.mp hf)
    subst hcs
    rw [takeLinesUntil_nil] at h
    cases h
    exact ⟨takeLinesUntil_nil stop, fun hr => absurd rfl hr⟩
  | succ n ih =>
    intro cs b r hf h
    by_cases hcs : cs = []
    · subst hcs
      rw [takeLinesUntil_nil] at h
      cases h
      exact ⟨takeLinesUntil_nil stop, fun hr => absurd rfl hr⟩
    · by_cases hst : stop cs
      · rw [takeLinesUntil_stop hcs hst] at h
        cases h
        refine ⟨takeLinesUntil_nil stop, fun _ r' hr' hstr' => ?_⟩
        rw [List.nil_append]
        exact takeLinesUntil_stop hr' hstr'
      · have hst' : stop cs = false := by simpa using hst
        have horig : takeLinesUntil stop cs = (b, r) := h
        rw [takeLinesUntil_cons hcs hst'] at h
        rcases htl : takeLineIncl cs with ⟨ln, rest⟩
        rw [htl] at h
        rcases hrec : takeLinesUntil stop rest with ⟨b', r'⟩
        rw [hrec] at h
        cases h
        have hlt : rest.length < cs.length := by
          have := takeLineIncl_length hcs
          rw [htl] at this
          exact this
        obtain ⟨ihb, ihs⟩ := ih rest b' r' (by omega) hrec
        have hrest : rest = b' ++ r' := by
          have := takeLinesUntil_eq stop rest
          rw [hrec] at this
          exact this.symm
        have hcseq : ln ++ rest = cs := by
          have := takeLineIncl_eq cs
          rw [htl] at this
          exact this
        by_cases hre : rest = []
        · rw [hre, takeLinesUntil_nil] at hrec
          injection hrec with hb' hr'
          subst hb'
          subst hr'
          have hcsln : cs = ln := by rw [← hcseq, hre, List.append_nil]
          constructor
          · rw [List.append_nil]
            rw [hcsln] at horig
            simpa [List.append_nil] using horig
          · intro hfalse
            exact absurd rfl hfalse
        · have hline' : ∃ l, ln = l ++ ['\n'] := by
            rcases takeLineIncl_cases cs with ⟨l, hl, _⟩ | ⟨h2, _⟩
            · rw [htl] at hl
              exact ⟨l, hl⟩
            · rw [htl] at h2
              exact absurd h2 hre
          obtain ⟨l, hl⟩ := hline'
          have hstopinv : ∀ Y, stop (ln ++ Y) = false := by
            intro Y
            have h1 : stop (ln ++ Y) = stop (ln ++ rest) := by
              rw [hl, List.append_assoc, List.append_assoc, ← List.append_assoc l,
                ← List.append_assoc l, hline l Y, hline l rest]
            rw [h1, hcseq]
            exact hst'
          have hlnne : ln ≠ [] := by rw [hl]; simp
          constructor
          · have hne : ln ++ b' ≠ [] := fun hcon => hlnne (List.append_eq_nil.mp hcon).1
            rw [takeLinesUntil_cons hne (hstopinv b'),
              takeLineIncl_replay htl b' (Or.inl hre), ihb]
          · intro hrne r'' hr''ne hr''stop
            have hne : ln ++ b' ++ r'' ≠ [] := by
              intro hcon
              rw [List.append_assoc] at hcon
              exact hlnne (List.append_eq_nil.mp hcon).1
            rw [List.append_assoc]
            have hne2 : ln ++ (b' ++ r'') ≠ [] := by
              rw [← List.append_assoc]
              exact hne
            rw [takeLinesUntil_cons hne2 (hstopinv (b' ++ r'')),
              takeLineIncl_replay htl (b' ++ r'') (Or.inl hre),
              ihs hrne r'' hr''ne hr''stop]

theorem takeLinesUntil_replay_self {stop : List Char → Bool}
    (hline : ∀ l X, stop ((l ++ ['\n']) ++ X) = stop (l ++ ['\n']))
    {cs b r : List Char} (h : takeLinesUntil stop cs = (b, r)) :
    takeLinesUntil stop b = (b, []) :=
  (takeLinesUntil_replay hline cs.length cs b r (Nat.le_refl _) h).1

theorem takeLinesUntil_replay_suffix {stop : List Char → Bool}
    (hline : ∀ l X, stop ((l ++ ['\n']) ++ X) = stop (l ++ ['\n']))
    {cs b r : List Char} (h : takeLinesUntil stop cs = (b, r)) (hr : r ≠ [])
    {r' : List Char} (hr' : r' ≠ []) (hst : stop r' = true) :
    takeLinesUntil stop (b ++ r') = (b, r') :=
  (takeLinesUntil_replay hline cs.length cs b r (Nat.le_refl _) h).2 hr r' hr' hst

theorem digitsToNat_append (l : List Char) (c : Char) :
    digitsToNat (l ++ [c]) = digitsToNat l * 10 + charVal c := by
  unfold digitsToNat
  rw [List.foldl_append]
  rfl

theorem natToStrF_congr : ∀ (f g n : Nat), n < f → n < g → natToStrF f n = natToStrF g n := by
  intro f
  induction f with
  | zero => intro g n hf _; omega
  | succ f ih =>
    intro g n hf hg
    cases g with
    | zero => omega
    | succ g =>
      by_cases h10 : n < 10
      · simp [natToStrF, h10]
      · have hn : 0 < n := by omega
        have hdiv : n / 10 < n := Nat.div_lt_self hn (by norm_num)
        simp only [natToStrF, h10, if_false]
        rw [ih g (n / 10) (by omega) (by omega)]

theorem natToStr_lt {n : Nat} (h : n < 10) : natToStr n = [Nat.digitChar n] := by
  unfold natToStr
  simp [natToStrF, h]

theorem natToStr_ge {n : Nat} (h : 10 ≤ n) :
    natToStr n = natToStr (n / 10) ++ [Nat.digitChar (n % 10)] := by
  have hn : 0 < n := by omega
  have hdiv : n / 10 < n := Nat.div_lt_self hn (by norm_num)
  conv_lhs => rw [natToStr]
  rw [show natToStrF (n + 1) n =
      if n < 10 then [Nat.digitChar n] else natToStrF n (n / 10) ++ [Nat.digitChar (n % 10)]
    from rfl]
  rw [if_neg (by omega)]
  rw [natToStrF_congr n (n / 10 + 1) (n / 10) (by omega) (by omega)]
  rfl

theorem charVal_digitChar {d : Nat} (h : d < 10) : charVal (Nat.digitChar d) = d := by
  interval_cases d <;> decide

theorem digitChar_isDigit {d : Nat} (h : d < 10) : (Nat.digitChar d).isDigit = true := by
  interval_cases d <;> decide

theorem isDigit_ne {c c' : Char} (h : c.isDigit = true) (h' : c'.isDigit = false) :
    (c == c') = false := by
  rcases hbe : (c == c') with _ | _
  · rfl
  · have : c = c' := by simpa using hbe
    subst this
    rw [h] at h'
    exact absurd h' (by simp)

theorem digitsToNat_natToStr (n : Nat) : digitsToNat (natToStr n) = n := by
  induction n using Nat.strong_induction_on with
  | _ n ih =>
    by_cases h : n < 10
    · rw [natToStr_lt h]
      show digitsToNat ([] ++ [Nat.digitChar n]) = n
      rw [digitsToNat_append]
      simp [digitsToNat, charVal_digitChar h]
    · have h10 : 10 ≤ n := by omega
      have hn : 0 < n := by omega
      have hdiv : n / 10 < n := Nat.div_lt_self hn (by norm_num)
      rw [natToStr_ge h10, digitsToNat_append, ih (n / 10) hdiv,
        charVal_digitChar (Nat.mod_lt n (by norm_num))]
      omega

theorem natToStr_ne_nil (n : Nat) : natToStr n ≠ [] := by
  by_cases h : n < 10
  · rw [natToStr_lt h]; simp
  · rw [natToStr_ge (by omega)]; simp

theorem natToStr_all_digit (n : Nat) : ∀ c ∈ natToStr n, c.isDigit = true := by
  induction n using Nat.strong_induction_on with
  | _ n ih =>
    by_cases h : n < 10
    · rw [natToStr_lt h]
      intro c hc
      rw [List.mem_singleton] at hc
      subst hc
      exact digitChar_isDigit h
    · have hn : 0 < n := by omega
      have hdiv : n / 10 < n := Nat.div_lt_self hn (by norm_num)
      rw [natToStr_ge (by omega)]
      intro c hc
      rcases List.mem_append.mp hc with hc | hc
      · exact ih (n / 10) hdiv c hc
      · rw [List.mem_singleton] at hc
        subst hc
        exact digitChar_isDigit (Nat.mod_lt n (by norm_num))

theorem stripPlus_eq {s : List Char} (h : ∀ r, s ≠ '+' :: r) : stripPlus s = s := by
  unfold stripPlus
  split
  · rename_i r
    exact absurd rfl (h r)
  · rfl

theorem parseU32_digits {s : List Char} (hs : s ≠ []) (hd : ∀ c ∈ s, c.isDigit = true)
    (hbound : digitsToNat s < 4294967296) : parseU32 s = some (digitsToNat s) := by
  have hplus : ∀ r, s ≠ '+' :: r := by
    intro r hcon
    have : ('+' : Char).isDigit = true := hd '+' (by rw [hcon]; simp)
    exact absurd this (by decide)
  have h1 : s.isEmpty = false := by simp [List.isEmpty_iff, hs]
  have h2 : s.all Char.isDigit = true := List.all_eq_true.mpr hd
  unfold parseU32
  rw [stripPlus_eq hplus, h1, h2]
  simp [hbound]

theorem parseU32_natToStr {n : Nat} (h : n < 4294967296) : parseU32 (natToStr n) = some n := by
  rw [parseU32_digits (natToStr_ne_nil n) (natToStr_all_digit n)
    (by rw [digitsToNat_natToStr]; exact h), digitsToNat_natToStr]

theorem parseU32_some {s : List Char} {v : Nat} (h : parseU32 s = some v) :
    v < 4294967296 ∧ v = digitsToNat (stripPlus s) := by
  unfold parseU32 at h
  split at h
  · exact absurd h (by simp)
  · split at h
    · split at h
      · rename_i hbound
        cases h
        exact ⟨hbound, rfl⟩
      · exact absurd h (by simp)
    · exact absurd h (by simp)

theorem isDigit_not_nl {c : Char} (h : c.isDigit = true) : (c == '\n') = false :=
  isDigit_ne h (by decide)

theorem matchRange_eq {ru : Rule} {cs : List Char} {p : Pair} {rest : List Char}
    (h : matchRange ru cs = some (p, rest)) :
    p.str ++ rest = cs ∧ GoodRange ru p ∧ p.str ≠ [] ∧
      (∀ c ∈ p.str, (c == '\n') = false) := by
  have hsplit : cs.takeWhile Char.isDigit ++ cs.dropWhile Char.isDigit = cs :=
    List.takeWhile_append_dropWhile Char.isDigit cs
  have hdigs : ∀ c ∈ cs.takeWhile Char.isDigit, c.isDigit = true := fun c hc => mem_takeWhile_q hc
  unfold matchRange at h
  simp only [] at h
  split at h
  · exact absurd h (by simp)
  · rename_i hse
    have hsne : cs.takeWhile Char.isDigit ≠ [] := by
      intro hcon
      exact hse (by simp [hcon])
    split at h
    · rename_i r2 heq
      have hdigs2 : ∀ c ∈ r2.takeWhile Char.isDigit, c.isDigit = true :=
        fun c hc => mem_takeWhile_q hc
      split at h
      · injection h with h'
        injection h' with hp hr
        subst hp
        subst hr
        refine ⟨?_, ?_, hsne, ?_⟩
        · show cs.takeWhile Char.isDigit ++ ',' :: r2 = cs
          rw [← heq]
          exact hsplit
        · exact Or.inl ⟨rfl, hsne, List.all_eq_true.mpr hdigs⟩
        · intro c hc
          exact isDigit_not_nl (hdigs c hc)
      · rename_i hlse
        have hlsne : r2.takeWhile Char.isDigit ≠ [] := by
          intro hcon
          exact hlse (by simp [hcon])
        injection h with h'
        injection h' with hp hr
        subst hp
        subst hr
        refine ⟨?_, ?_, by simp [Pair.str], ?_⟩
        · show (cs.takeWhile Char.isDigit ++ ',' :: r2.takeWhile Char.isDigit) ++
            r2.dropWhile Char.isDigit = cs
          rw [List.append_assoc, List.cons_append, List.takeWhile_append_dropWhile, ← heq]
          exact hsplit
        · exact Or.inr ⟨_, _, rfl, hsne, List.all_eq_true.mpr hdigs, hlsne,
            List.all_eq_true.mpr hdigs2⟩
        · intro c hc
          show (c == '\n') = false
          rcases List.mem_append.mp hc with hc | hc
          · exact isDigit_not_nl (hdigs c hc)
          · rcases List.mem_cons.mp hc with hc | hc
            · subst hc; decide
            · exact isDigit_not_nl (hdigs2 c hc)
    · injection h with h'
      injection h' with hp hr
      subst hp
      subst hr
      refine ⟨hsplit, ?_, hsne, ?_⟩
      · exact Or.inl ⟨rfl, hsne, List.all_eq_true.mpr hdigs⟩
      · intro c hc
        exact isDigit_not_nl (hdigs c hc)

theorem matchRange_digits {ru : Rule} {s ls r : List Char}
    (hs : s ≠ []) (hsd : ∀ c ∈ s, Char.isDigit c = true)
    (hls : ls ≠ []) (hlsd : ∀ c ∈ ls, Char.isDigit c = true) :
    matchRange ru (s ++ ',' :: (ls ++ ' ' :: r)) =
      some (Pair.mk ru (s ++ ',' :: ls) [Pair.mk .start s [], Pair.mk .lines ls []],
        ' ' :: r) := by
  obtain ⟨ht1, hd1⟩ := takeWhile_stable (r := ',' :: (ls ++ ' ' :: r)) hsd
    (by intro c hc; simp at hc; subst hc; decide)
  obtain ⟨ht2, hd2⟩ := takeWhile_stable (r := ' ' :: r) hlsd
    (by intro c hc; simp at hc; subst hc; decide)
  unfold matchRange
  simp only []
  rw [ht1, hd1, if_neg (by simp [List.isEmpty_iff, hs])]
  show (if (List.takeWhile Char.isDigit (ls ++ ' ' :: r)).isEmpty = true then _ else _) = _
  rw [ht2]
  rw [if_neg (by simp [List.isEmpty_iff, hls])]
  rw [hd2]

theorem matchRange_replay {ru : Rule} {cs : List Char} {p : Pair} {rest : List Char}
    (h : matchRange ru cs = some (p, rest)) (X : List Char) :
    matchRange ru (p.str ++ ' ' :: X) = some (p, ' ' :: X) := by
  obtain ⟨_, hgood, _, _⟩ := matchRange_eq h
  rcases hgood with ⟨hpeq, hne, hall⟩ | ⟨s, ls, hpeq, hsne, hsd, hlsne, hlsd⟩
  · have hsd : ∀ c ∈ p.str, Char.isDigit c = true := fun c hc => by
      have := List.all_eq_true.mp hall c hc
      simpa using this
    obtain ⟨ht1, hd1⟩ := takeWhile_stable (r := ' ' :: X) hsd
      (by intro c hc; simp at hc; subst hc; decide)
    conv_lhs => rw [hpeq]
    unfold matchRange
    simp only []
    show (if (List.takeWhile Char.isDigit (Pair.str (Pair.mk ru p.str
      [Pair.mk .start p.str []]) ++ ' ' :: X)).isEmpty = true then _ else _) = _
    rw [show Pair.str (Pair.mk ru p.str [Pair.mk .start p.str []]) = p.str from rfl]
    rw [ht1, hd1, if_neg (by simp [List.isEmpty_iff, hne])]
    conv_rhs => rw [hpeq]
    rfl
  · have hps : p.str = s ++ ',' :: ls := by rw [hpeq]; rfl
    rw [hps, List.append_assoc, List.cons_append]
    rw [matchRange_digits hsne (fun c hc => by simpa using List.all_eq_true.mp hsd c hc)
      hlsne (fun c hc => by simpa using List.all_eq_true.mp hlsd c hc)]
    rw [hpeq]

theorem hunkMarker_cons (W : List Char) : hunkMarker ++ W = '@' :: '@' :: ' ' :: '-' :: W := rfl

theorem plusSep_cons (W : List Char) : plusSep ++ W = ' ' :: '+' :: W := rfl

theorem atClose_cons (W : List Char) : atClose ++ W = ' ' :: '@' :: '@' :: W := rfl

theorem hunkMarker_drop (W : List Char) : (hunkMarker ++ W).drop 4 = W := rfl

theorem startsWith_hunkMarker (W : List Char) :
    startsWith hunkMarker ('@' :: '@' :: ' ' :: '-' :: W) = true := by
  rw [← hunkMarker_cons]
  exact startsWith_append _ _

theorem startsWith_plusSep (W : List Char) : startsWith plusSep (' ' :: '+' :: W) = true := by
  rw [← plusSep_cons]
  exact startsWith_append _ _

theorem startsWith_atClose (W : List Char) :
    startsWith atClose (' ' :: '@' :: '@' :: W) = true := by
  rw [← atClose_cons]
  exact startsWith_append _ _

theorem matchHunkHeader_eq {cs : List Char} {op np : Pair} {r5 : List Char}
    (h : matchHunkHeader cs = some (op, np, r5)) :
    cs = (hunkMarker ++ op.str ++ plusSep ++ np.str ++ atClose) ++ r5 ∧
    GoodRange .old_range op ∧ GoodRange .new_range np ∧
    (∀ c ∈ hunkMarker ++ op.str ++ plusSep ++ np.str ++ atClose, (c == '\n') = false) ∧
    (∀ Y, matchHunkHeader ((hunkMarker ++ op.str ++ plusSep ++ np.str ++ atClose) ++ Y) =
      some (op, np, Y)) := by
  unfold matchHunkHeader at h
  split at h
  · rename_i hsw1
    split at h
    · rename_i op' r2 heq1
      split at h
      · rename_i hsw2
        split at h
        · rename_i np' r4 heq2
          split at h
          · rename_i hsw3
            injection h with h'
            injection h' with hop h''
            injection h'' with hnp hr5
            replace hop := hop.symm
            subst hop
            replace hnp := hnp.symm
            subst hnp
            subst hr5
            obtain ⟨hrec1, hgood1, hne1, hnl1⟩ := matchRange_eq heq1
            obtain ⟨hrec2, hgood2, hne2, hnl2⟩ := matchRange_eq heq2
            have hcs4 : cs = hunkMarker ++ cs.drop 4 := by
              have := startsWith_eq_append hsw1
              simpa using this
            have hr2 : r2 = plusSep ++ r2.drop 2 := by
              have := startsWith_eq_append hsw2
              simpa using this
            have hr4 : r4 = atClose ++ r4.drop 3 := by
              have := startsWith_eq_append hsw3
              simpa using this
            have hrecon :
                cs = (hunkMarker ++ op.str ++ plusSep ++ np.str ++ atClose) ++ r4.drop 3 := by
              conv_lhs => rw [hcs4, ← hrec1, hr2, ← hrec2, hr4]
              simp [List.append_assoc]
            refine ⟨hrecon, hgood1, hgood2, ?_, ?_⟩
            · intro c hc
              simp only [List.append_assoc, List.mem_append] at hc
              rcases hc with hc | hc | hc | hc | hc
              · exact (by decide : ∀ x ∈ hunkMarker, (x == '\n') = false) c hc
              · exact hnl1 c hc
              · exact (by decide : ∀ x ∈ plusSep, (x == '\n') = false) c hc
              · exact hnl2 c hc
              · exact (by decide : ∀ x ∈ atClose, (x == '\n') = false) c hc
            · intro Y
              have e1 : matchRange .old_range
                  (op.str ++ (' ' :: ('+' :: (np.str ++ (' ' :: ('@' :: ('@' :: Y))))))) =
                  some (op, ' ' :: ('+' :: (np.str ++ (' ' :: ('@' :: ('@' :: Y)))))) :=
                matchRange_replay heq1 _
              have e2 : matchRange .new_range (np.str ++ (' ' :: ('@' :: ('@' :: Y)))) =
                  some (np, ' ' :: ('@' :: ('@' :: Y))) :=
                matchRange_replay heq2 _
              unfold matchHunkHeader
              simp only [List.append_assoc, plusSep_cons, atClose_cons]
              rw [hunkMarker_cons, startsWith_hunkMarker, ← hunkMarker_cons, hunkMarker_drop]
              simp only [if_true, List.cons_append, List.append_assoc, e1, e2,
                startsWith_plusSep, startsWith_atClose, List.drop_succ_cons, List.drop_zero]
          · exact absurd h (by simp)
        · exact absurd h (by simp)
      · exact absurd h (by simp)
    · exact absurd h (by simp)
  · exact absurd h (by simp)

theorem matchHunkHeader_startsWith {cs : List Char} {v : Pair × Pair × List Char}
    (h : matchHunkHeader cs = some v) : startsWith hunkMarker cs = true := by
  unfold matchHunkHeader at h
  split at h
  · rename_i hsw
    exact hsw
  · exact absurd h (by simp)

theorem isHunkHeaderStart_line (l' X : List Char) :
    isHunkHeaderStart ((l' ++ ['\n']) ++ X) = isHunkHeaderStart (l' ++ ['\n']) := by
  rcases h2 : isHunkHeaderStart (l' ++ ['\n']) with _ | _
  · rcases h1 : isHunkHeaderStart ((l' ++ ['\n']) ++ X) with _ | _
    · rfl
    · exfalso
      unfold isHunkHeaderStart at h1
      rcases hm : matchHunkHeader ((l' ++ ['\n']) ++ X) with _ | ⟨op, np, r5⟩
      · rw [hm] at h1; simp at h1
      · obtain ⟨hrecon, _, _, hnl, hreplay⟩ := matchHunkHeader_eq hm
        have hpre : (hunkMarker ++ op.str ++ plusSep ++ np.str ++ atClose) <+:
            (l' ++ ['\n']) ++ X := ⟨r5, hrecon.symm⟩
        have hsw : startsWith (hunkMarker ++ op.str ++ plusSep ++ np.str ++ atClose)
            ((l' ++ ['\n']) ++ X) = true := startsWith_iff.mpr hpre
        rw [startsWith_line hnl] at hsw
        have hpre2 := startsWith_iff.mp hsw
        have hlen : (hunkMarker ++ op.str ++ plusSep ++ np.str ++ atClose).length ≤
            l'.length := by
          by_contra hcon
          have hlen2 : (hunkMarker ++ op.str ++ plusSep ++ np.str ++ atClose).length ≤
              l'.length + 1 := by
            have := hpre2.length_le
            simpa using this
          have hexact : (hunkMarker ++ op.str ++ plusSep ++ np.str ++ atClose).length =
              l'.length + 1 := by omega
          have heqH : hunkMarker ++ op.str ++ plusSep ++ np.str ++ atClose = l' ++ ['\n'] := by
            have ht := List.prefix_iff_eq_take.mp hpre2
            rw [ht, hexact, List.take_of_length_le (by simp)]
          have hmem : ('\n' : Char) ∈ hunkMarker ++ op.str ++ plusSep ++ np.str ++ atClose := by
            rw [heqH]; simp
          have := hnl '\n' hmem
          simp at this
        have hpre3 : (hunkMarker ++ op.str ++ plusSep ++ np.str ++ atClose) <+: l' := by
          have h1' := List.prefix_iff_eq_take.mp hpre2
          rw [List.take_append_of_le_length hlen] at h1'
          rw [h1']
          exact List.take_prefix _ _
        obtain ⟨m, hm'⟩ := hpre3
        have hsome : matchHunkHeader (l' ++ ['\n']) = some (op, np, m ++ ['\n']) := by
          have := hreplay (m ++ ['\n'])
          rw [← List.append_assoc, hm'] at this
          exact this
        rw [show isHunkHeaderStart (l' ++ ['\n']) =
          (matchHunkHeader (l' ++ ['\n'])).isSome from rfl, hsome] at h2
        simp at h2
  · unfold isHunkHeaderStart at h2 ⊢
    rcases hm : matchHunkHeader (l' ++ ['\n']) with _ | ⟨op, np, r5⟩
    · rw [hm] at h2; simp at h2
    · obtain ⟨hrecon, _, _, _, hreplay⟩ := matchHunkHeader_eq hm
      have hrepl := hreplay (r5 ++ X)
      rw [← List.append_assoc, ← hrecon] at hrepl
      rw [hrepl]
      rfl

theorem headerStop_line (l X : List Char) :
    headerStop ((l ++ ['\n']) ++ X) = headerStop (l ++ ['\n']) :=
  startsWith_line (by decide) l X

theorem bodyStop_line (l X : List Char) :
    bodyStop ((l ++ ['\n']) ++ X) = bodyStop (l ++ ['\n']) := by
  unfold bodyStop
  rw [isHunkHeaderStart_line, startsWith_line (by decide) l X]

theorem matchHunk_eq {cs : List Char} {p : Pair} {rest : List Char}
    (h : matchHunk cs = some (p, rest)) :
    p.str ++ rest = cs ∧ GoodHunk p ∧ p.str ≠ [] := by
  unfold matchHunk at h
  split at h
  · exact absurd h (by simp)
  · rename_i op np r5 heq
    simp only [] at h
    injection h with h'
    injection h' with hp hr
    replace hp := hp.symm
    subst hp
    subst hr
    obtain ⟨hrecon, hgood1, hgood2, hnlH, _⟩ := matchHunkHeader_eq heq
    have hctx : r5.takeWhile (fun c => !(c == '\n')) ++ r5.dropWhile (fun c => !(c == '\n')) =
        r5 := List.takeWhile_append_dropWhile _ _
    have hr6 : (if (r5.dropWhile (fun c => !(c == '\n'))).isEmpty then ([] : List Char)
        else ['\n']) ++
        (if (r5.dropWhile (fun c => !(c == '\n'))).isEmpty then ([] : List Char)
          else (r5.dropWhile (fun c => !(c == '\n'))).drop 1) =
        r5.dropWhile (fun c => !(c == '\n')) := by
      rcases hd : r5.dropWhile (fun c => !(c == '\n')) with _ | ⟨c, t⟩
      · simp
      · have hc : (fun c => !(c == '\n')) c = false := dropWhile_head_false hd
        have hcnl : c = '\n' := by simpa using hc
        subst hcnl
        simp
    have hbody := takeLinesUntil_eq bodyStop
      (if (r5.dropWhile (fun c => !(c == '\n'))).isEmpty then []
        else (r5.dropWhile (fun c => !(c == '\n'))).drop 1)
    refine ⟨?_, ?_, by simp [Pair.str, hunkMarker]⟩
    · simp only [Pair.str]
      rw [hrecon]
      simp only [List.append_assoc]
      rw [hbody, hr6, hctx]
      rfl
    · refine ⟨op, np, _, _, rfl, hgood1, hgood2, ?_, ?_⟩
      · intro c hc
        have := mem_takeWhile_q hc
        simpa using this
      · exact takeLinesUntil_replay_self bodyStop_line rfl

theorem matchHunk_nil : matchHunk [] = none := rfl

theorem matchHunk_consumes {cs : List Char} {p : Pair} {rest : List Char}
    (h : matchHunk cs = some (p, rest)) : rest.length < cs.length := by
  obtain ⟨hrec, _, hne⟩ := matchHunk_eq h
  have hlen := congrArg List.length hrec
  rw [List.length_append] at hlen
  have hpos : 0 < p.str.length := List.length_pos.mpr hne
  omega

theorem matchHunksF_congr : ∀ (f g : Nat) (cs : List Char), cs.length ≤ f → cs.length ≤ g →
    matchHunksF f cs = matchHunksF g cs := by
  intro f
  induction f with
  | zero =>
    intro g cs hf _
    have hcs : cs = [] := List.length_eq_zero.mp (Nat.le_zero.mp hf)
    subst hcs
    cases g with
    | zero => rfl
    | succ g => simp [matchHunksF, matchHunk_nil]
  | succ f ih =>
    intro g cs hf hg
    rcases hm : matchHunk cs with _ | ⟨p, rest⟩
    · cases g with
      | zero => simp [matchHunksF, hm]
      | succ g => simp [matchHunksF, hm]
    · have hcons := matchHunk_consumes hm
      cases g with
      | zero => omega
      | succ g =>
        simp only [matchHunksF, hm]
        rw [ih g rest (by omega) (by omega)]

theorem matchHunks_none {cs : List Char} (h : matchHunk cs = none) :
    matchHunks cs = ([], cs) := by
  unfold matchHunks
  rcases hn : cs.length with _ | n
  · rfl
  · simp [matchHunksF, h]

theorem matchHunks_cons {cs : List Char} {p : Pair} {rest : List Char}
    (h : matchHunk cs = some (p, rest)) :
    matchHunks cs = (p :: (matchHunks rest).1, (matchHunks rest).2) := by
  have hcons := matchHunk_consumes h
  unfold matchHunks
  rcases hn : cs.length with _ | n
  · omega
  · simp only [matchHunksF, h]
    rw [matchHunksF_congr n rest.length rest (by omega) (Nat.le_refl _)]

theorem matchHunks_eq : ∀ (n : Nat) (cs : List Char), cs.length ≤ n →
    listJoin ((matchHunks cs).1.map Pair.str) ++ (matchHunks cs).2 = cs ∧
    ∀ q ∈ (matchHunks cs).1, GoodHunk q := by
  intro n
  induction n with
  | zero =>
    intro cs hf
    have hcs : cs = [] := List.length_eq_zero.mp (Nat.le_zero.mp hf)
    subst hcs
    exact ⟨rfl, by simp [matchHunks, matchHunksF]⟩
  | succ n ih =>
    intro cs hf
    rcases hm : matchHunk cs with _ | ⟨p, rest⟩
    · rw [matchHunks_none hm]
      exact ⟨rfl, by simp⟩
    · have hcons := matchHunk_consumes hm
      obtain ⟨hrec, hgood, _⟩ := matchHunk_eq hm
      rw [matchHunks_cons hm]
      obtain ⟨ih1, ih2⟩ := ih rest (by omega)
      constructor
      · show p.str ++ listJoin ((matchHunks rest).1.map Pair.str) ++ (matchHunks rest).2 = cs
        rw [List.append_assoc, ih1]
        exact hrec
      · intro q hq
        rcases List.mem_cons.mp hq with hq | hq
        · subst hq
          exact hgood
        · exact ih2 q hq

theorem matchHunks_spans (cs : List Char) :
    listJoin ((matchHunks cs).1.map Pair.str) ++ (matchHunks cs).2 = cs :=
  (matchHunks_eq cs.length cs (Nat.le_refl _)).1

theorem matchHunks_good (cs : List Char) : ∀ q ∈ (matchHunks cs).1, GoodHunk q :=
  (matchHunks_eq cs.length cs (Nat.le_refl _)).2

theorem startsWith_pos {q cs : List Char} (h : startsWith q cs = true) (hq : q ≠ []) :
    cs ≠ [] := by
  obtain ⟨t, ht⟩ := startsWith_iff.mp h
  intro hcon
  rw [hcon] at ht
  exact hq (List.append_eq_nil.mp ht).1

theorem startsWith_takeLineIncl {q cs : List Char} (hsw : startsWith q cs = true)
    (hq : ∀ c ∈ q, (c == '\n') = false) : startsWith q ((takeLineIncl cs).1) = true := by
  obtain ⟨t, ht⟩ := startsWith_iff.mp hsw
  subst ht
  have hall : ∀ c ∈ q, (fun c => !(c == '\n')) c = true := fun c hc => by simp [hq c hc]
  have htw : (q ++ t).takeWhile (fun c => !(c == '\n')) =
      q ++ t.takeWhile (fun c => !(c == '\n')) := takeWhile_append_all hall
  unfold takeLineIncl
  split
  · show startsWith q ((q ++ t).takeWhile (fun c => !(c == '\n')) ++ ['\n']) = true
    rw [htw, List.append_assoc]
    exact startsWith_append _ _
  · show startsWith q ((q ++ t).takeWhile (fun c => !(c == '\n'))) = true
    rw [htw]
    exact startsWith_append _ _

theorem matchDiffHeader_eq {cs : List Char} {p : Pair} {rest : List Char}
    (h : matchDiffHeader cs = some (p, rest)) :
    p.str ++ rest = cs ∧ GoodHeaderShape p ∧ p.str ≠ [] ∧
    startsWith gitMarker cs = true ∧
    (rest ≠ [] → ∀ X, matchDiffHeader (p.str ++ X) = some (p, X)) := by
  unfold matchDiffHeader at h
  split at h
  · rename_i hsw1
    simp only [] at h
    split at h
    · rename_i hsw2
      split at h
      · rename_i hsw3
        injection h with h'
        injection h' with hp hr
        replace hp := hp.symm
        subst hp
        subst hr
        rcases htlG : takeLineIncl cs with ⟨g1, g2⟩
        rcases htlE : takeLinesUntil headerStop g2 with ⟨e1, e2⟩
        rcases htlO : takeLineIncl e2 with ⟨o1, o2⟩
        rcases htlN : takeLineIncl o2 with ⟨n1, n2⟩
        rw [htlG] at hsw2 hsw3
        dsimp only at hsw2 hsw3
        rw [htlE] at hsw2 hsw3
        dsimp only at hsw2 hsw3
        rw [htlO] at hsw3
        dsimp only at hsw3
        dsimp only
        have hrecG : g1 ++ g2 = cs := by
          have := takeLineIncl_eq cs
          rw [htlG] at this
          exact this
        have hrecE : e1 ++ e2 = g2 := by
          have := takeLinesUntil_eq headerStop g2
          rw [htlE] at this
          exact this
        have hrecO : o1 ++ o2 = e2 := by
          have := takeLineIncl_eq e2
          rw [htlO] at this
          exact this
        have hrecN : n1 ++ n2 = o2 := by
          have := takeLineIncl_eq o2
          rw [htlN] at this
          exact this
        have he2ne : e2 ≠ [] := startsWith_pos hsw2 (by decide)
        have ho2ne : o2 ≠ [] := startsWith_pos hsw3 (by decide)
        have hcsne : cs ≠ [] := startsWith_pos hsw1 (by decide)
        have hg1ne : g1 ≠ [] := by
          have := takeLineIncl_ne_nil hcsne
          rw [htlG] at this
          exact this
        refine ⟨?_, ⟨e1, _, _, rfl⟩, ?_, hsw1, ?_⟩
        · show g1 ++ e1 ++ o1 ++ n1 ++ n2 = cs
          rw [List.append_assoc, List.append_assoc, List.append_assoc, hrecN, hrecO, hrecE]
          exact hrecG
        · show g1 ++ e1 ++ o1 ++ n1 ≠ []
          intro hcon
          rcases List.append_eq_nil.mp hcon with ⟨hcon2, _⟩
          rcases List.append_eq_nil.mp hcon2 with ⟨hcon3, _⟩
          rcases List.append_eq_nil.mp hcon3 with ⟨hcon4, _⟩
          exact hg1ne hcon4
        · intro hrest X
          show matchDiffHeader (g1 ++ e1 ++ o1 ++ n1 ++ X) = _
          have hg2ne : g2 ≠ [] := by
            intro hcon
            rw [hcon] at hrecE
            rcases List.append_eq_nil.mp hrecE.symm.symm with ⟨_, h2⟩
            · exact he2ne h2
          have hswG : startsWith gitMarker (g1 ++ (e1 ++ (o1 ++ (n1 ++ X)))) = true := by
            have h1 := startsWith_takeLineIncl hsw1 (by decide)
            rw [htlG] at h1
            exact startsWith_mono h1
          have hswO : ∀ W : List Char, startsWith oldMarker (o1 ++ W) = true := by
            intro W
            have h1 := startsWith_takeLineIncl hsw2 (by decide)
            rw [htlO] at h1
            exact startsWith_mono h1
          have hswN : ∀ W : List Char, startsWith newMarker (n1 ++ W) = true := by
            intro W
            have h1 := startsWith_takeLineIncl hsw3 (by decide)
            rw [htlN] at h1
            exact startsWith_mono h1
          have eG : takeLineIncl (g1 ++ (e1 ++ (o1 ++ (n1 ++ X)))) =
              (g1, e1 ++ (o1 ++ (n1 ++ X))) :=
            takeLineIncl_replay htlG _ (Or.inl hg2ne)
          have eE : takeLinesUntil headerStop (e1 ++ (o1 ++ (n1 ++ X))) =
              (e1, o1 ++ (n1 ++ X)) := by
            have ho1ne : o1 ≠ [] := by
              have := takeLineIncl_ne_nil he2ne
              rw [htlO] at this
              exact this
            exact takeLinesUntil_replay_suffix headerStop_line htlE he2ne
              (fun hcon => ho1ne (List.append_eq_nil.mp hcon).1) (hswO _)
          have eO : takeLineIncl (o1 ++ (n1 ++ X)) = (o1, n1 ++ X) :=
            takeLineIncl_replay htlO _ (Or.inl ho2ne)
          have eN : takeLineIncl (n1 ++ X) = (n1, X) :=
            takeLineIncl_replay htlN _ (Or.inl hrest)
          unfold matchDiffHeader
          simp only [List.append_assoc]
          rw [hswG, if_pos rfl, eG]
          simp only []
          rw [eE]
          simp only []
          rw [hswO (n1 ++ X), if_pos rfl, eO]
          simp only []
          rw [hswN X, if_pos rfl, eN]
      · exact absurd h (by simp)
    · exact absurd h (by simp)
  · exact absurd h (by simp)

theorem matchDiff_eq {cs : List Char} {p : Pair} {rest : List Char}
    (h : matchDiff cs = some (p, rest)) :
    p.str ++ rest = cs ∧ GoodDiff p ∧ p.str ≠ [] := by
  unfold matchDiff at h
  split at h
  · exact absurd h (by simp)
  · rename_i hp r1 heq
    simp only [] at h
    injection h with h'
    injection h' with hpe hr
    replace hpe := hpe.symm
    subst hpe
    subst hr
    obtain ⟨hrecH, hshape, hne, hswG, hreplay⟩ := matchDiffHeader_eq heq
    refine ⟨?_, ⟨hp, (matchHunks r1).1, rfl, hshape, matchHunks_good r1, ?_⟩, ?_⟩
    · show hp.str ++ listJoin ((matchHunks r1).1.map Pair.str) ++ (matchHunks r1).2 = cs
      rw [List.append_assoc, matchHunks_spans r1]
      exact hrecH
    · intro hqsne X
      have hsome : ∃ q qrest, matchHunk r1 = some (q, qrest) := by
        rcases hm : matchHunk r1 with _ | ⟨q, qrest⟩
        · rw [matchHunks_none hm] at hqsne
          simp at hqsne
        · exact ⟨q, qrest, rfl⟩
      obtain ⟨q, qrest, hm⟩ := hsome
      have hr1ne : r1 ≠ [] := by
        intro hcon
        rw [hcon, matchHunk_nil] at hm
        cases hm
      exact hreplay hr1ne X
    · show hp.str ++ listJoin ((matchHunks r1).1.map Pair.str) ≠ []
      intro hcon
      exact hne (List.append_eq_nil.mp hcon).1

theorem matchDiff_nil : matchDiff [] = none := rfl

theorem matchDiff_consumes {cs : List Char} {p : Pair} {rest : List Char}
    (h : matchDiff cs = some (p, rest)) : rest.length < cs.length := by
  obtain ⟨hrec, _, hne⟩ := matchDiff_eq h
  have hlen := congrArg List.length hrec
  rw [List.length_append] at hlen
  have hpos : 0 < p.str.length := List.length_pos.mpr hne
  omega

theorem matchDiffsF_congr : ∀ (f g : Nat) (cs : List Char), cs.length ≤ f → cs.length ≤ g →
    matchDiffsF f cs = matchDiffsF g cs := by
  intro f
  induction f with
  | zero =>
    intro g cs hf _
    have hcs : cs = [] := List.length_eq_zero.mp (Nat.le_zero.mp hf)
    subst hcs
    cases g with
    | zero => rfl
    | succ g => simp [matchDiffsF, matchDiff_nil]
  | succ f ih =>
    intro g cs hf hg
    rcases hm : matchDiff cs with _ | ⟨p, rest⟩
    · cases g with
      | zero => simp [matchDiffsF, hm]
      | succ g => simp [matchDiffsF, hm]
    · have hcons := matchDiff_consumes hm
      cases g with
      | zero => omega
      | succ g =>
        simp only [matchDiffsF, hm]
        rw [ih g rest (by omega) (by omega)]

theorem matchDiffs_none {cs : List Char} (h : matchDiff cs = none) :
    matchDiffs cs = ([], cs) := by
  unfold matchDiffs
  rcases hn : cs.length with _ | n
  · rfl
  · simp [matchDiffsF, h]

theorem matchDiffs_cons {cs : List Char} {p : Pair} {rest : List Char}
    (h : matchDiff cs = some (p, rest)) :
    matchDiffs cs = (p :: (matchDiffs rest).1, (matchDiffs rest).2) := by
  have hcons := matchDiff_consumes h
  unfold matchDiffs
  rcases hn : cs.length with _ | n
  · omega
  · simp only [matchDiffsF, h]
    rw [matchDiffsF_congr n rest.length rest (by omega) (Nat.le_refl _)]

theorem matchDiffs_eq : ∀ (n : Nat) (cs : List Char), cs.length ≤ n →
    listJoin ((matchDiffs cs).1.map Pair.str) ++ (matchDiffs cs).2 = cs ∧
    ∀ q ∈ (matchDiffs cs).1, GoodDiff q := by
  intro n
  induction n with
  | zero =>
    intro cs hf
    have hcs : cs = [] := List.length_eq_zero.mp (Nat.le_zero.mp hf)
    subst hcs
    exact ⟨rfl, by simp [matchDiffs, matchDiffsF]⟩
  | succ n ih =>
    intro cs hf
    rcases hm : matchDiff cs with _ | ⟨p, rest⟩
    · rw [matchDiffs_none hm]
      exact ⟨rfl, by simp⟩
    · have hcons := matchDiff_consumes hm
      obtain ⟨hrec, hgood, _⟩ := matchDiff_eq hm
      rw [matchDiffs_cons hm]
      obtain ⟨ih1, ih2⟩ := ih rest (by omega)
      constructor
      · show p.str ++ listJoin ((matchDiffs rest).1.map Pair.str) ++ (matchDiffs rest).2 = cs
        rw [List.append_assoc, ih1]
        exact hrec
      · intro q hq
        rcases List.mem_cons.mp hq with hq | hq
        · subst hq
          exact hgood
        · exact ih2 q hq

theorem matchDiffs_spans (cs : List Char) :
    listJoin ((matchDiffs cs).1.map Pair.str) ++ (matchDiffs cs).2 = cs :=
  (matchDiffs_eq cs.length cs (Nat.le_refl _)).1

theorem matchDiffs_good (cs : List Char) : ∀ q ∈ (matchDiffs cs).1, GoodDiff q :=
  (matchDiffs_eq cs.length cs (Nat.le_refl _)).2

theorem DiffParserParse_ok {cs : List Char} {pairs : List Pair}
    (h : DiffParserParse cs = .ok pairs) :
    ((startsWith gitMarker cs || cs.isEmpty) = true ∧
      pairs = (matchDiffs cs).1 ∧ (matchDiffs cs).2 = []) ∨
    ((startsWith gitMarker cs || cs.isEmpty) = false ∧
      pairs = Pair.mk .commit (cs.takeWhile (fun c => !(c == '\n'))) [] ::
        (matchDiffs ((cs.dropWhile (fun c => !(c == '\n'))).drop 1)).1 ∧
      (matchDiffs ((cs.dropWhile (fun c => !(c == '\n'))).drop 1)).2 = []) := by
  unfold DiffParserParse at h
  simp only [] at h
  by_cases hc : (startsWith gitMarker cs || cs.isEmpty) = true
  · left
    rw [if_pos hc] at h
    dsimp only at h
    split at h
    · rename_i hemp
      injection h with h'
      exact ⟨hc, h'.symm, List.isEmpty_iff.mp hemp⟩
    · exact absurd h (by simp)
  · right
    rw [if_neg hc] at h
    dsimp only at h
    split at h
    · rename_i hemp
      injection h with h'
      exact ⟨by simpa using hc, h'.symm, List.isEmpty_iff.mp hemp⟩
    · exact absurd h (by simp)

theorem forall₂_mem_right {α β : Type} {R : α → β → Prop} :
    ∀ {l₁ : List α} {l₂ : List β}, List.Forall₂ R l₁ l₂ → ∀ {b}, b ∈ l₂ →
      ∃ a, a ∈ l₁ ∧ R a b := by
  intro l₁ l₂ hfa
  induction hfa with
  | nil => intro b hb; simp at hb
  | cons hr hfa ih =>
    intro b hb
    rcases List.mem_cons.mp hb with hb | hb
    · subst hb
      exact ⟨_, List.mem_cons_self _ _, hr⟩
    · obtain ⟨a, ha, har⟩ := ih hb
      exact ⟨a, List.mem_cons_of_mem _ ha, har⟩

theorem GoodDiff_rule {p : Pair} (h : GoodDiff p) : p.rule = .diff := by
  obtain ⟨hp, hqs, hpeq, _⟩ := h
  rw [hpeq]
  rfl

theorem parse_diff_header_shape (s e o n : List Char) :
    parse_diff_header (Pair.mk .diff_header s
      [Pair.mk .header_extra e [], Pair.mk .old_file o [], Pair.mk .new_file n []]) =
    .ok (o, n) := rfl

theorem parse_range_startOnly {ru : Rule} {s str : List Char} {a b : Nat}
    (h : parse_range (Pair.mk ru str [Pair.mk .start s []]) = .ok (a, b)) : False := by
  unfold parse_range parse_range_fields at h
  dsimp only [Pair.inner, Pair.rule, Pair.str] at h
  rcases hp : parseU32 s with _ | v
  · rw [hp] at h
    exact absurd h (by simp)
  · rw [hp] at h
    dsimp only [parse_range_fields] at h
    exact absurd h (by simp)

theorem parse_range_comma {ru : Rule} {s ls str : List Char} {a b : Nat}
    (h : parse_range (Pair.mk ru str [Pair.mk .start s [], Pair.mk .lines ls []]) = .ok (a, b)) :
    parseU32 s = some a ∧ parseU32 ls = some b := by
  unfold parse_range parse_range_fields at h
  dsimp only [Pair.inner, Pair.rule, Pair.str] at h
  rcases hp : parseU32 s with _ | v
  · rw [hp] at h
    exact absurd h (by simp)
  · rw [hp] at h
    dsimp only [parse_range_fields, Pair.inner, Pair.rule, Pair.str] at h
    rcases hq : parseU32 ls with _ | w
    · rw [hq] at h
      exact absurd h (by simp)
    · rw [hq] at h
      dsimp only [parse_range_fields] at h
      injection h with h'
      injection h' with ha hb
      subst ha
      subst hb
      exact ⟨rfl, rfl⟩

theorem parse_range_comma_ok {ru : Rule} {s ls str : List Char} {a b : Nat}
    (hs : parseU32 s = some a) (hls : parseU32 ls = some b) :
    parse_range (Pair.mk ru str [Pair.mk .start s [], Pair.mk .lines ls []]) = .ok (a, b) := by
  unfold parse_range parse_range_fields
  dsimp only [Pair.inner, Pair.rule, Pair.str]
  rw [hs]
  dsimp only [parse_range_fields, Pair.inner, Pair.rule, Pair.str]
  rw [hls]

theorem parse_range_good_ok {ru : Rule} {p : Pair} {a b : Nat} (hG : GoodRange ru p)
    (h : parse_range p = .ok (a, b)) : a < 4294967296 ∧ b < 4294967296 := by
  rcases p with ⟨pr, ps, pi⟩
  rcases hG with ⟨hpeq, _, _⟩ | ⟨s, ls, hpeq, _, _, _, _⟩
  · injection hpeq with h1 h2 h3
    rw [h3] at h
    exact absurd (parse_range_startOnly h) (fun hcon => hcon)
  · injection hpeq with h1 h2 h3
    rw [h3] at h
    obtain ⟨hs, hls⟩ := parse_range_comma h
    exact ⟨(parseU32_some hs).1, (parseU32_some hls).1⟩

theorem parse_hunk_shape {op np : Pair} {sctx sbody fh o n str : List Char} {hk : Hunk}
    (hop : op.rule = .old_range) (hnp : np.rule = .new_range)
    (hok : parse_hunk (Pair.mk .hunk str
      [op, np, Pair.mk .context sctx [], Pair.mk .hunk_body sbody []]) fh o n = .ok hk) :
    ∃ a b a' b', parse_range op = .ok (a, b) ∧ parse_range np = .ok (a', b') ∧
      hk = ⟨fh, o, n, a, b, a', b', sctx, sbody⟩ := by
  unfold parse_hunk parse_hunk_fields at hok
  dsimp only [Pair.inner, Pair.str] at hok
  rw [hop] at hok
  rcases h1 : parse_range op with e | ⟨a, b⟩
  · rw [h1] at hok
    exact absurd hok (by simp)
  · rw [h1] at hok
    dsimp only [parse_hunk_fields] at hok
    rw [hnp] at hok
    rcases h2 : parse_range np with e | ⟨a', b'⟩
    · rw [h2] at hok
      exact absurd hok (by simp)
    · rw [h2] at hok
      dsimp only [parse_hunk_fields, Pair.rule, Pair.str] at hok
      injection hok with h'
      exact ⟨a, b, a', b', rfl, rfl, h'.symm⟩

theorem parse_hunk_build {op np : Pair} {sctx sbody fh o n str : List Char} {a b a' b' : Nat}
    (hop : op.rule = .old_range) (hnp : np.rule = .new_range)
    (h1 : parse_range op = .ok (a, b)) (h2 : parse_range np = .ok (a', b')) :
    parse_hunk (Pair.mk .hunk str
      [op, np, Pair.mk .context sctx [], Pair.mk .hunk_body sbody []]) fh o n =
    .ok ⟨fh, o, n, a, b, a', b', sctx, sbody⟩ := by
  unfold parse_hunk parse_hunk_fields
  dsimp only [Pair.inner, Pair.str]
  rw [hop, h1]
  dsimp only [parse_hunk_fields]
  rw [hnp, h2]
  dsimp only [parse_hunk_fields, Pair.rule, Pair.str]

theorem GoodRange_rule {ru : Rule} {p : Pair} (h : GoodRange ru p) : p.rule = ru := by
  rcases h with ⟨hpeq, _, _⟩ | ⟨s, ls, hpeq, _⟩
  · rw [hpeq]; rfl
  · rw [hpeq]; rfl

theorem parse_hunk_good {q : Pair} {fh o n : List Char} {hk : Hunk} (hG : GoodHunk q)
    (hok : parse_hunk q fh o n = .ok hk) :
    hk.file_header = fh ∧ hk.old_file = o ∧ hk.new_file = n ∧
    hk.old_start < 4294967296 ∧ hk.old_lines < 4294967296 ∧
    hk.new_start < 4294967296 ∧ hk.new_lines < 4294967296 ∧
    (∀ c ∈ hk.header_suffix, (c == '\n') = false) ∧
    takeLinesUntil bodyStop hk.content = (hk.content, []) := by
  obtain ⟨op, np, sctx, sbody, hqeq, hgop, hgnp, hctx, hbody⟩ := hG
  rcases q with ⟨qr, qs, qi⟩
  injection hqeq with h1 h2 h3
  subst h1
  rw [h3] at hok
  obtain ⟨a, b, a', b', hr1, hr2, hkeq⟩ :=
    parse_hunk_shape (GoodRange_rule hgop) (GoodRange_rule hgnp) hok
  obtain ⟨hb1, hb2⟩ := parse_range_good_ok hgop hr1
  obtain ⟨hb3, hb4⟩ := parse_range_good_ok hgnp hr2
  subst hkeq
  exact ⟨rfl, rfl, rfl, hb1, hb2, hb3, hb4, hctx, hbody⟩

theorem parse_diff_fields_hunks :
    ∀ (hqs : List Pair) (fh o n : List Char) (acc : List Hunk)
      (res : Option (List Char) × Option (List Char) × Option (List Char) × List Hunk),
      (∀ q ∈ hqs, q.rule = .hunk) →
      parse_diff_fields hqs (some fh) (some o) (some n) acc = .ok res →
      ∃ hs, res = (some fh, some o, some n, acc ++ hs) ∧
        List.Forall₂ (fun q hk => parse_hunk q fh o n = .ok hk) hqs hs := by
  intro hqs
  induction hqs with
  | nil =>
    intro fh o n acc res _ hok
    have hok2 : (Except.ok (some fh, some o, some n, acc) :
        Except String (Option (List Char) × Option (List Char) × Option (List Char) ×
          List Hunk)) = .ok res := hok
    injection hok2 with h'
    exact ⟨[], by rw [← h']; simp, List.Forall₂.nil⟩
  | cons q qs ih =>
    intro fh o n acc res hrule hok
    have hok2 : (match q.rule with
        | Rule.diff_header =>
          match parse_diff_header q with
          | .ok v => parse_diff_fields qs (some q.str) (some v.1) (some v.2) acc
          | .error e => .error e
        | Rule.hunk =>
          match parse_hunk q fh o n with
          | .ok hk => parse_diff_fields qs (some fh) (some o) (some n) (acc ++ [hk])
          | .error e => .error e
        | _ => .error "No rule") = .ok res := hok
    rw [hrule q (List.mem_cons_self q qs)] at hok2
    dsimp only at hok2
    rcases hp : parse_hunk q fh o n with e | hk
    · rw [hp] at hok2
      exact absurd hok2 (by simp)
    · rw [hp] at hok2
      dsimp only at hok2
      obtain ⟨hs, hres, hfa⟩ := ih fh o n (acc ++ [hk]) res
        (fun q' hq' => hrule q' (List.mem_cons_of_mem q hq')) hok2
      refine ⟨hk :: hs, ?_, List.Forall₂.cons hp hfa⟩
      rw [hres]
      simp

theorem parse_diff_good {p : Pair} {δ : Delta} (hG : GoodDiff p) (hok : parse_diff p = .ok δ) :
    ∃ hps e o n hqs,
      p = Pair.mk .diff (hps ++ listJoin (hqs.map Pair.str))
        (Pair.mk .diff_header hps [Pair.mk .header_extra e [], Pair.mk .old_file o [],
          Pair.mk .new_file n []] :: hqs) ∧
      (∀ q ∈ hqs, GoodHunk q) ∧
      (hqs ≠ [] → ∀ X, matchDiffHeader (hps ++ X) = some (Pair.mk .diff_header hps
        [Pair.mk .header_extra e [], Pair.mk .old_file o [], Pair.mk .new_file n []], X)) ∧
      δ = ⟨hps, o, n, δ.hunks⟩ ∧
      List.Forall₂ (fun q hk => parse_hunk q hps o n = .ok hk) hqs δ.hunks := by
  obtain ⟨hp, hqs, hpeq, hshape, hgoodq, hreplay⟩ := hG
  obtain ⟨e, o, n, hhp⟩ := hshape
  rcases hp with ⟨hpr, hps, hpi⟩
  injection hhp with hh1 hh2 hh3
  subst hh1
  subst hh3
  rw [hpeq] at hok
  have hok2 : (match parse_diff_fields hqs (some hps) (some o) (some n) [] with
      | .error e' => (.error e' : Except String Delta)
      | .ok (some fh, some o', some n', hs) => .ok ⟨fh, o', n', hs⟩
      | .ok _ => .error "unwrap on None") = .ok δ := hok
  rcases hfields : parse_diff_fields hqs (some hps) (some o) (some n) [] with e' | res
  · rw [hfields] at hok2
    exact absurd hok2 (by simp)
  · rw [hfields] at hok2
    obtain ⟨hs, hres, hfa⟩ := parse_diff_fields_hunks hqs hps o n [] res
      (fun q hq => by
        obtain ⟨op', np', sctx', sbody', hqeq', _⟩ := hgoodq q hq
        rw [hqeq']
        rfl) hfields
    subst hres
    dsimp only at hok2
    injection hok2 with h'
    refine ⟨hps, e, o, n, hqs, ?_, hgoodq, hreplay, ?_, ?_⟩
    · rw [hpeq]
      rfl
    · rw [← h']
    · rw [← h']
      simpa using hfa

theorem parse_top_ok :
    ∀ (ps : List Pair) (c : Option (List Char)) (ds : List Delta) (d : Diff),
      parse_top ps c ds = .ok d → (∀ p ∈ ps, p.rule = .diff) →
      d.commit = c ∧ ∃ δs, d.deltas = ds ++ δs ∧
        List.Forall₂ (fun p δ => parse_diff p = .ok δ) ps δs := by
  intro ps
  induction ps with
  | nil =>
    intro c ds d h _
    unfold parse_top at h
    injection h with h'
    subst h'
    exact ⟨rfl, [], by simp, List.Forall₂.nil⟩
  | cons p ps ih =>
    intro c ds d h hrule
    unfold parse_top at h
    rw [hrule p (List.mem_cons_self p ps)] at h
    dsimp only at h
    rcases hpd : parse_diff p with e | δ
    · rw [hpd] at h
      exact absurd h (by simp)
    · rw [hpd] at h
      dsimp only at h
      obtain ⟨hc, δs, hds, hfa⟩ := ih c (ds ++ [δ]) d h
        (fun q hq => hrule q (List.mem_cons_of_mem p hq))
      refine ⟨hc, δ :: δs, ?_, List.Forall₂.cons hpd hfa⟩
      rw [hds]
      simp

theorem parse_ok_facts {cs : List Char} {d : Diff} (h : Diff.parse cs = .ok d) :
    ∃ dps, (∀ q ∈ dps, GoodDiff q) ∧
      List.Forall₂ (fun p δ => parse_diff p = .ok δ) dps d.deltas ∧
      d.commit = (if (startsWith gitMarker cs || cs.isEmpty) = true then none
        else some (cs.takeWhile (fun c => !(c == '\n')))) ∧
      (d.commit = none → listJoin (dps.map Pair.str) = cs) := by
  unfold Diff.parse at h
  rcases hparse : DiffParserParse cs with e | pairs
  · rw [hparse] at h
    exact absurd h (by simp)
  · rw [hparse] at h
    dsimp only at h
    rcases DiffParserParse_ok hparse with ⟨hcond, hpairs, hrest⟩ | ⟨hcond, hpairs, hrest⟩
    · subst hpairs
      have hgood := matchDiffs_good cs
      obtain ⟨hc, δs, hds, hfa⟩ := parse_top_ok (matchDiffs cs).1 none [] d h
        (fun q hq => GoodDiff_rule (hgood q hq))
      refine ⟨(matchDiffs cs).1, hgood, ?_, ?_, ?_⟩
      · rw [hds]
        simpa using hfa
      · rw [hc, if_pos hcond]
      · intro _
        have := matchDiffs_spans cs
        rw [hrest, List.append_nil] at this
        exact this
    · subst hpairs
      have hgood := matchDiffs_good ((cs.dropWhile (fun c => !(c == '\n'))).drop 1)
      unfold parse_top at h
      dsimp only [Pair.rule] at h
      obtain ⟨hc, δs, hds, hfa⟩ := parse_top_ok _ _ [] d h
        (fun q hq => GoodDiff_rule (hgood q hq))
      refine ⟨(matchDiffs ((cs.dropWhile (fun c => !(c == '\n'))).drop 1)).1, hgood, ?_, ?_, ?_⟩
      · rw [hds]
        simpa using hfa
      · rw [hc, if_neg (by rw [hcond]; simp)]
        rfl
      · intro hcon
        rw [hc] at hcon
        exact absurd hcon (by simp [Pair.str])

theorem parse_hunk_facts {cs : List Char} {d : Diff} (h : Diff.parse cs = .ok d)
    {δ : Delta} (hδ : δ ∈ d.deltas) {hk : Hunk} (hh : hk ∈ δ.hunks) :
    hk.file_header = δ.file_header ∧ hk.old_file = δ.old_file ∧ hk.new_file = δ.new_file ∧
    HunkWF hk := by
  obtain ⟨dps, hgood, hfa, _, _⟩ := parse_ok_facts h
  obtain ⟨p, hp, hpd⟩ := forall₂_mem_right hfa hδ
  obtain ⟨hps, e, o, n, hqs, hpeq, hgoodq, hreplay, hδeq, hfa2⟩ :=
    parse_diff_good (hgood p hp) hpd
  obtain ⟨q, hq, hqok⟩ := forall₂_mem_right hfa2 hh
  obtain ⟨hf1, hf2, hf3, hb1, hb2, hb3, hb4, hctx, hbody⟩ :=
    parse_hunk_good (hgoodq q hq) hqok
  have hδ1 : δ.file_header = hps := congrArg Delta.file_header hδeq
  have hδ2 : δ.old_file = o := congrArg Delta.old_file hδeq
  have hδ3 : δ.new_file = n := congrArg Delta.new_file hδeq
  have hqsne : hqs ≠ [] := by
    intro hcon
    rw [hcon] at hq
    simp at hq
  refine ⟨by rw [hf1, hδ1], by rw [hf2, hδ2], by rw [hf3, hδ3],
    hb1, hb2, hb3, hb4, hctx, hbody, e, ?_⟩
  intro X
  rw [hf1, hf2, hf3]
  exact hreplay hqsne X

theorem atData : "@@ -".data = hunkMarker := rfl

theorem plusData : " +".data = plusSep := rfl

theorem closeData : " @@".data = atClose := rfl

theorem commaData_cons (x : List Char) : ",".data ++ x = ',' :: x := rfl

theorem drop1_cons (a : Char) (x : List Char) : (a :: x).drop 1 = x := rfl

theorem drop2_cons (a b : Char) (x : List Char) : (a :: b :: x).drop 2 = x := rfl

theorem drop3_cons (a b c : Char) (x : List Char) : (a :: b :: c :: x).drop 3 = x := rfl

theorem matchHunks_nil : matchHunks [] = ([], []) := rfl

theorem matchDiffs_nil : matchDiffs [] = ([], []) := rfl

theorem parse_diff_build {hps e o n qs str : List Char} {qi : List Pair} {hk : Hunk}
    (hq : parse_hunk (Pair.mk .hunk qs qi) hps o n = .ok hk) :
    parse_diff (Pair.mk .diff str
      (Pair.mk .diff_header hps [Pair.mk .header_extra e [], Pair.mk .old_file o [],
        Pair.mk .new_file n []] :: [Pair.mk .hunk qs qi])) = .ok ⟨hps, o, n, [hk]⟩ := by
  have h1 : parse_diff_fields [Pair.mk .hunk qs qi] (some hps) (some o) (some n) [] =
      .ok (some hps, some o, some n, [hk]) := by
    have h2 : (match parse_hunk (Pair.mk .hunk qs qi) hps o n with
        | .ok hk' => parse_diff_fields [] (some hps) (some o) (some n) ([] ++ [hk'])
        | .error e' => (.error e' : Except String (Option (List Char) × Option (List Char) ×
            Option (List Char) × List Hunk))) =
        parse_diff_fields [Pair.mk .hunk qs qi] (some hps) (some o) (some n) [] := rfl
    rw [← h2, hq]
    rfl
  have h3 : (match parse_diff_fields [Pair.mk .hunk qs qi] (some hps) (some o) (some n) [] with
      | .error e' => (.error e' : Except String Delta)
      | .ok (some fh, some o', some n', hs) => .ok ⟨fh, o', n', hs⟩
      | .ok _ => .error "unwrap on None") =
      parse_diff (Pair.mk .diff str
        (Pair.mk .diff_header hps [Pair.mk .header_extra e [], Pair.mk .old_file o [],
          Pair.mk .new_file n []] :: [Pair.mk .hunk qs qi])) := rfl
  rw [← h3, h1]

theorem parse_top_single {P : Pair} {D : Delta} (hr : P.rule = .diff)
    (hpd : parse_diff P = .ok D) : parse_top [P] none [] = .ok ⟨none, [D]⟩ := by
  unfold parse_top
  rw [hr]
  dsimp only
  rw [hpd]
  dsimp only
  rfl

theorem format_patch_reparse {h : Hunk} (hw : HunkWF h) :
    Diff.parse h.format_patch =
      .ok ⟨none, [⟨h.file_header, h.old_file, h.new_file, [h]⟩]⟩ := by
  obtain ⟨hb1, hb2, hb3, hb4, hsfx, hbody, e, hreplay⟩ := hw
  have d1 := natToStr_ne_nil h.old_start
  have d1d : ∀ c ∈ natToStr h.old_start, Char.isDigit c = true := natToStr_all_digit _
  have d2 := natToStr_ne_nil h.old_lines
  have d2d : ∀ c ∈ natToStr h.old_lines, Char.isDigit c = true := natToStr_all_digit _
  have d3 := natToStr_ne_nil h.new_start
  have d3d : ∀ c ∈ natToStr h.new_start, Char.isDigit c = true := natToStr_all_digit _
  have d4 := natToStr_ne_nil h.new_lines
  have d4d : ∀ c ∈ natToStr h.new_lines, Char.isDigit c = true := natToStr_all_digit _
  have hTT : Hunk.format_patch h = h.file_header ++
      (hunkMarker ++ (natToStr h.old_start ++ ',' :: (natToStr h.old_lines ++ ' ' :: ('+' ::
        (natToStr h.new_start ++ ',' :: (natToStr h.new_lines ++ ' ' :: ('@' :: '@' ::
          (h.header_suffix ++ '\n' :: h.content)))))))) := by
    unfold Hunk.format_patch Hunk.header Hunk.display_header
    rw [atData, plusData, closeData]
    simp only [List.append_assoc, List.cons_append, List.nil_append, plusSep_cons,
      atClose_cons, commaData_cons]
  have hhh : matchHunkHeader
      (hunkMarker ++ (natToStr h.old_start ++ ',' :: (natToStr h.old_lines ++ ' ' :: ('+' ::
        (natToStr h.new_start ++ ',' :: (natToStr h.new_lines ++ ' ' :: ('@' :: '@' ::
          (h.header_suffix ++ '\n' :: h.content)))))))) =
      some (Pair.mk .old_range (natToStr h.old_start ++ ',' :: natToStr h.old_lines)
              [Pair.mk .start (natToStr h.old_start) [],
               Pair.mk .lines (natToStr h.old_lines) []],
            Pair.mk .new_range (natToStr h.new_start ++ ',' :: natToStr h.new_lines)
              [Pair.mk .start (natToStr h.new_start) [],
               Pair.mk .lines (natToStr h.new_lines) []],
            h.header_suffix ++ '\n' :: h.content) := by
    unfold matchHunkHeader
    rw [startsWith_append, if_pos rfl, hunkMarker_drop]
    rw [matchRange_digits d1 d1d d2 d2d]
    dsimp only
    rw [startsWith_plusSep, if_pos rfl, drop2_cons]
    rw [matchRange_digits d3 d3d d4 d4d]
    dsimp only
    rw [startsWith_atClose, if_pos rfl, drop3_cons]
  have hctxsplit := takeWhile_stable (q := fun c => !(c == '\n')) (l := h.header_suffix)
    (r := '\n' :: h.content) (fun c hc => by simp [hsfx c hc])
    (by intro c hc; simp at hc; subst hc; simp)
  have hmh : matchHunk
      (hunkMarker ++ (natToStr h.old_start ++ ',' :: (natToStr h.old_lines ++ ' ' :: ('+' ::
        (natToStr h.new_start ++ ',' :: (natToStr h.new_lines ++ ' ' :: ('@' :: '@' ::
          (h.header_suffix ++ '\n' :: h.content)))))))) =
      some (Pair.mk .hunk
          (hunkMarker ++ (natToStr h.old_start ++ ',' :: natToStr h.old_lines) ++ plusSep ++
            (natToStr h.new_start ++ ',' :: natToStr h.new_lines) ++ atClose ++
            h.header_suffix ++ ['\n'] ++ h.content)
          [Pair.mk .old_range (natToStr h.old_start ++ ',' :: natToStr h.old_lines)
             [Pair.mk .start (natToStr h.old_start) [],
              Pair.mk .lines (natToStr h.old_lines) []],
           Pair.mk .new_range (natToStr h.new_start ++ ',' :: natToStr h.new_lines)
             [Pair.mk .start (natToStr h.new_start) [],
              Pair.mk .lines (natToStr h.new_lines) []],
           Pair.mk .context h.header_suffix [],
           Pair.mk .hunk_body h.content []],
        []) := by
    unfold matchHunk
    rw [hhh]
    dsimp only
    rw [hctxsplit.1, hctxsplit.2]
    have e1 : (if ('\n' :: h.content).isEmpty = true then ([] : List Char) else ['\n']) =
        ['\n'] := rfl
    have e2 : (if ('\n' :: h.content).isEmpty = true then ([] : List Char)
        else ('\n' :: h.content).drop 1) = h.content := rfl
    rw [e1, e2, hbody]
    rfl
  have hstage1 : DiffParserParse h.format_patch =
      .ok [Pair.mk .diff
        (h.file_header ++ listJoin ([Pair.mk .hunk
          (hunkMarker ++ (natToStr h.old_start ++ ',' :: natToStr h.old_lines) ++ plusSep ++
            (natToStr h.new_start ++ ',' :: natToStr h.new_lines) ++ atClose ++
            h.header_suffix ++ ['\n'] ++ h.content)
          [Pair.mk .old_range (natToStr h.old_start ++ ',' :: natToStr h.old_lines)
             [Pair.mk .start (natToStr h.old_start) [],
              Pair.mk .lines (natToStr h.old_lines) []],
           Pair.mk .new_range (natToStr h.new_start ++ ',' :: natToStr h.new_lines)
             [Pair.mk .start (natToStr h.new_start) [],
              Pair.mk .lines (natToStr h.new_lines) []],
           Pair.mk .context h.header_suffix [],
           Pair.mk .hunk_body h.content []]].map Pair.str))
        (Pair.mk .diff_header h.file_header
          [Pair.mk .header_extra e [], Pair.mk .old_file h.old_file [],
           Pair.mk .new_file h.new_file []] ::
         [Pair.mk .hunk
          (hunkMarker ++ (natToStr h.old_start ++ ',' :: natToStr h.old_lines) ++ plusSep ++
            (natToStr h.new_start ++ ',' :: natToStr h.new_lines) ++ atClose ++
            h.header_suffix ++ ['\n'] ++ h.content)
          [Pair.mk .old_range (natToStr h.old_start ++ ',' :: natToStr h.old_lines)
             [Pair.mk .start (natToStr h.old_start) [],
              Pair.mk .lines (natToStr h.old_lines) []],
           Pair.mk .new_range (natToStr h.new_start ++ ',' :: natToStr h.new_lines)
             [Pair.mk .start (natToStr h.new_start) [],
              Pair.mk .lines (natToStr h.new_lines) []],
           Pair.mk .context h.header_suffix [],
           Pair.mk .hunk_body h.content []]])] := by
    have hmd : matchDiff h.format_patch = some (Pair.mk .diff
        (h.file_header ++ listJoin ([Pair.mk .hunk
          (hunkMarker ++ (natToStr h.old_start ++ ',' :: natToStr h.old_lines) ++ plusSep ++
            (natToStr h.new_start ++ ',' :: natToStr h.new_lines) ++ atClose ++
            h.header_suffix ++ ['\n'] ++ h.content)
          [Pair.mk .old_range (natToStr h.old_start ++ ',' :: natToStr h.old_lines)
             [Pair.mk .start (natToStr h.old_start) [],
              Pair.mk .lines (natToStr h.old_lines) []],
           Pair.mk .new_range (natToStr h.new_start ++ ',' :: natToStr h.new_lines)
             [Pair.mk .start (natToStr h.new_start) [],
              Pair.mk .lines (natToStr h.new_lines) []],
           Pair.mk .context h.header_suffix [],
           Pair.mk .hunk_body h.content []]].map Pair.str))
        (Pair.mk .diff_header h.file_header
          [Pair.mk .header_extra e [], Pair.mk .old_file h.old_file [],
           Pair.mk .new_file h.new_file []] ::
         [Pair.mk .hunk
          (hunkMarker ++ (natToStr h.old_start ++ ',' :: natToStr h.old_lines) ++ plusSep ++
            (natToStr h.new_start ++ ',' :: natToStr h.new_lines) ++ atClose ++
            h.header_suffix ++ ['\n'] ++ h.content)
          [Pair.mk .old_range (natToStr h.old_start ++ ',' :: natToStr h.old_lines)
             [Pair.mk .start (natToStr h.old_start) [],
              Pair.mk .lines (natToStr h.old_lines) []],
           Pair.mk .new_range (natToStr h.new_start ++ ',' :: natToStr h.new_lines)
             [Pair.mk .start (natToStr h.new_start) [],
              Pair.mk .lines (natToStr h.new_lines) []],
           Pair.mk .context h.header_suffix [],
           Pair.mk .hunk_body h.content []]]), []) := by
      unfold matchDiff
      rw [hTT, hreplay]
      dsimp only
      rw [matchHunks_cons hmh, matchHunks_nil]
      rfl
    have hsw : startsWith gitMarker h.format_patch = true := by
      rw [hTT]
      exact (matchDiffHeader_eq (hreplay _)).2.2.2.1
    unfold DiffParserParse
    rw [hsw]
    simp only [Bool.true_or, eq_self_iff_true, if_true]
    rw [matchDiffs_cons hmd, matchDiffs_nil]
    rfl
  unfold Diff.parse
  rw [hstage1]
  dsimp only
  have hpr1 : parse_range (Pair.mk .old_range
      (natToStr h.old_start ++ ',' :: natToStr h.old_lines)
      [Pair.mk .start (natToStr h.old_start) [], Pair.mk .lines (natToStr h.old_lines) []]) =
      .ok (h.old_start, h.old_lines) :=
    parse_range_comma_ok (parseU32_natToStr hb1) (parseU32_natToStr hb2)
  have hpr2 : parse_range (Pair.mk .new_range
      (natToStr h.new_start ++ ',' :: natToStr h.new_lines)
      [Pair.mk .start (natToStr h.new_start) [], Pair.mk .lines (natToStr h.new_lines) []]) =
      .ok (h.new_start, h.new_lines) :=
    parse_range_comma_ok (parseU32_natToStr hb3) (parseU32_natToStr hb4)
  have hph : parse_hunk (Pair.mk .hunk
      (hunkMarker ++ (natToStr h.old_start ++ ',' :: natToStr h.old_lines) ++ plusSep ++
        (natToStr h.new_start ++ ',' :: natToStr h.new_lines) ++ atClose ++
        h.header_suffix ++ ['\n'] ++ h.content)
      [Pair.mk .old_range (natToStr h.old_start ++ ',' :: natToStr h.old_lines)
         [Pair.mk .start (natToStr h.old_start) [],
          Pair.mk .lines (natToStr h.old_lines) []],
       Pair.mk .new_range (natToStr h.new_start ++ ',' :: natToStr h.new_lines)
         [Pair.mk .start (natToStr h.new_start) [],
          Pair.mk .lines (natToStr h.new_lines) []],
       Pair.mk .context h.header_suffix [],
       Pair.mk .hunk_body h.content []]) h.file_header h.old_file h.new_file = .ok h :=
    parse_hunk_build rfl rfl hpr1 hpr2
  have hpd : parse_diff (Pair.mk .diff
      (h.file_header ++ listJoin ([Pair.mk .hunk
        (hunkMarker ++ (natToStr h.old_start ++ ',' :: natToStr h.old_lines) ++ plusSep ++
          (natToStr h.new_start ++ ',' :: natToStr h.new_lines) ++ atClose ++
          h.header_suffix ++ ['\n'] ++ h.content)
        [Pair.mk .old_range (natToStr h.old_start ++ ',' :: natToStr h.old_lines)
           [Pair.mk .start (natToStr h.old_start) [],
            Pair.mk .lines (natToStr h.old_lines) []],
         Pair.mk .new_range (natToStr h.new_start ++ ',' :: natToStr h.new_lines)
           [Pair.mk .start (natToStr h.new_start) [],
            Pair.mk .lines (natToStr h.new_lines) []],
         Pair.mk .context h.header_suffix [],
         Pair.mk .hunk_body h.content []]].map Pair.str))
      (Pair.mk .diff_header h.file_header
        [Pair.mk .header_extra e [], Pair.mk .old_file h.old_file [],
         Pair.mk .new_file h.new_file []] ::
       [Pair.mk .hunk
        (hunkMarker ++ (natToStr h.old_start ++ ',' :: natToStr h.old_lines) ++ plusSep ++
          (natToStr h.new_start ++ ',' :: natToStr h.new_lines) ++ atClose ++
          h.header_suffix ++ ['\n'] ++ h.content)
        [Pair.mk .old_range (natToStr h.old_start ++ ',' :: natToStr h.old_lines)
           [Pair.mk .start (natToStr h.old_start) [],
            Pair.mk .lines (natToStr h.old_lines) []],
         Pair.mk .new_range (natToStr h.new_start ++ ',' :: natToStr h.new_lines)
           [Pair.mk .start (natToStr h.new_start) [],
            Pair.mk .lines (natToStr h.new_lines) []],
         Pair.mk .context h.header_suffix [],
         Pair.mk .hunk_body h.content []]])) =
      .ok ⟨h.file_header, h.old_file, h.new_file, [h]⟩ :=
    parse_diff_build hph
  exact parse_top_single rfl hpd

theorem GoodHunk_rule {q : Pair} (h : GoodHunk q) : q.rule = .hunk := by
  obtain ⟨op, np, sctx, sbody, hqeq, _⟩ := h
  rw [hqeq]
  rfl

theorem mem_listJoin {α : Type} {a : α} :
    ∀ {ls : List (List α)}, a ∈ listJoin ls ↔ ∃ l ∈ ls, a ∈ l := by
  intro ls
  induction ls with
  | nil => simp [listJoin]
  | cons l ls ih =>
    simp only [listJoin, List.mem_append, ih, List.mem_cons]
    constructor
    · rintro (ha | ⟨l', hl', ha⟩)
      · exact ⟨l, Or.inl rfl, ha⟩
      · exact ⟨l', Or.inr hl', ha⟩
    · rintro ⟨l', hl' | hl', ha⟩
      · subst hl'
        exact Or.inl ha
      · exact Or.inr ⟨l', hl', ha⟩

theorem join_display_eq :
    ∀ {dps : List Pair} {δs : List Delta},
      List.Forall₂ (fun p δ => parse_diff p = .ok δ) dps δs →
      (∀ q ∈ dps, GoodDiff q) → (∀ δ ∈ δs, δ.hunks = []) →
      listJoin (δs.map Delta.displayString) = listJoin (dps.map Pair.str) := by
  intro dps δs hfa
  induction hfa with
  | nil => intro _ _; rfl
  | @cons p δ ps δs hr hfa ih =>
    intro hgood hhl
    obtain ⟨hps, e, o, n, hqs, hpeq, _, _, hδeq, hfa2⟩ :=
      parse_diff_good (hgood p (List.mem_cons_self p ps)) hr
    have hδ0 : δ.hunks = [] := hhl δ (List.mem_cons_self δ δs)
    have hqs0 : hqs = [] := by
      rw [hδ0] at hfa2
      cases hfa2
      rfl
    subst hqs0
    have hd : Delta.displayString δ = hps := by
      unfold Delta.displayString
      rw [hδ0]
      have : δ.file_header = hps := congrArg Delta.file_header hδeq
      rw [this]
      simp [listJoin]
    have hp : Pair.str p = hps := by
      rw [hpeq]
      simp [Pair.str, listJoin]
    show Delta.displayString δ ++ listJoin (δs.map Delta.displayString) =
      Pair.str p ++ listJoin (ps.map Pair.str)
    rw [hd, hp, ih (fun q hq => hgood q (List.mem_cons_of_mem p hq))
      (fun δ' hδ' => hhl δ' (List.mem_cons_of_mem δ hδ'))]

theorem forall₂_counts :
    ∀ {dps : List Pair} {δs : List Delta},
      List.Forall₂ (fun p δ => parse_diff p = .ok δ) dps δs → (∀ q ∈ dps, GoodDiff q) →
      List.Forall₂ (fun p δ =>
        δ.hunks.length = (p.inner.filter (fun q => q.rule == .hunk)).length) dps δs := by
  intro dps δs hfa
  induction hfa with
  | nil => intro _; exact List.Forall₂.nil
  | @cons p δ ps δs hr hfa ih =>
    intro hgood
    refine List.Forall₂.cons ?_ (ih fun q hq => hgood q (List.mem_cons_of_mem p hq))
    obtain ⟨hps, e, o, n, hqs, hpeq, hgoodq, _, hδeq, hfa2⟩ :=
      parse_diff_good (hgood p (List.mem_cons_self p ps)) hr
    rw [hpeq]
    dsimp only [Pair.inner]
    rw [List.filter_cons_of_neg (by simp [Pair.rule])]
    rw [List.filter_eq_self.mpr (fun q hq => by rw [GoodHunk_rule (hgoodq q hq)]; rfl)]
    exact (List.Forall₂.length_eq hfa2).symm

theorem filter_diff_pairs {cs : List Char} {pairs : List Pair}
    (hp : DiffParserParse cs = .ok pairs) :
    ∃ dps, pairs.filter (fun p => p.rule == .diff) = dps ∧ (∀ q ∈ dps, GoodDiff q) ∧
      ((startsWith gitMarker cs || cs.isEmpty) = true ∧ pairs = dps ∨
       (startsWith gitMarker cs || cs.isEmpty) = false ∧
         pairs = Pair.mk .commit (cs.takeWhile (fun c => !(c == '\n'))) [] :: dps) := by
  rcases DiffParserParse_ok hp with ⟨hcond, hpairs, _⟩ | ⟨hcond, hpairs, _⟩
  · refine ⟨(matchDiffs cs).1, ?_, matchDiffs_good cs, Or.inl ⟨hcond, hpairs⟩⟩
    rw [hpairs]
    exact List.filter_eq_self.mpr
      (fun q hq => by rw [GoodDiff_rule (matchDiffs_good cs q hq)]; rfl)
  · refine ⟨(matchDiffs ((cs.dropWhile (fun c => !(c == '\n'))).drop 1)).1, ?_,
      matchDiffs_good _, Or.inr ⟨hcond, hpairs⟩⟩
    rw [hpairs]
    rw [List.filter_cons_of_neg (by simp [Pair.rule])]
    exact List.filter_eq_self.mpr
      (fun q hq => by rw [GoodDiff_rule (matchDiffs_good _ q hq)]; rfl)

theorem rangePairs_good {cs : List Char} {pairs : List Pair}
    (hp : DiffParserParse cs = .ok pairs) :
    ∀ r ∈ rangePairsOf pairs, GoodRange .old_range r ∨ GoodRange .new_range r := by
  intro r hr
  obtain ⟨dps, hfilter, hgood, _⟩ := filter_diff_pairs hp
  unfold rangePairsOf hunkPairsOf at hr
  rw [hfilter] at hr
  obtain ⟨l, hl, hrl⟩ := mem_listJoin.mp hr
  obtain ⟨q, hq, hql⟩ := List.mem_map.mp hl
  rw [← hql] at hrl
  obtain ⟨l2, hl2, hql2⟩ := mem_listJoin.mp hq
  obtain ⟨p, hpmem, hpl2⟩ := List.mem_map.mp hl2
  rw [← hpl2] at hql2
  have hqhunk : q ∈ (p.inner.filter (fun q' => q'.rule == .hunk)) := hql2
  have hqmem := List.mem_of_mem_filter hqhunk
  obtain ⟨hp2, hqs, hpeq, hshape, hgoodq, _⟩ := hgood p hpmem
  have hinner : p.inner = hp2 :: hqs := by
    rw [hpeq]
    rfl
  rw [hinner] at hqmem
  rcases List.mem_cons.mp hqmem with hq0 | hq0
  · exfalso
    have hmemf := List.of_mem_filter hqhunk
    rw [hq0] at hmemf
    obtain ⟨e, o, n, hh⟩ := hshape
    rw [hh] at hmemf
    simp [Pair.rule] at hmemf
  · obtain ⟨op, np, sctx, sbody, hqeq, hgop, hgnp, _⟩ := hgoodq q hq0
    have hq2 : r ∈ q.inner.filter (fun r' => r'.rule == .old_range || r'.rule == .new_range) := by
      have hql' := hql
      exact hql' ▸ hrl
    rw [hqeq] at hq2
    dsimp only [Pair.inner] at hq2
    have hrop : op.rule = .old_range := GoodRange_rule hgop
    have hrnp : np.rule = .new_range := GoodRange_rule hgnp
    rcases op with ⟨ro, so, io⟩
    rcases np with ⟨rn, sn, inn⟩
    dsimp only [Pair.rule] at hrop hrnp
    subst hrop
    subst hrnp
    have hfilt : ([Pair.mk .old_range so io, Pair.mk .new_range sn inn,
        Pair.mk .context sctx [], Pair.mk .hunk_body sbody []]).filter
        (fun r2 => r2.rule == .old_range || r2.rule == .new_range) =
        [Pair.mk .old_range so io, Pair.mk .new_range sn inn] := rfl
    rw [hfilt] at hq2
    rcases List.mem_cons.mp hq2 with h1 | h1
    · subst h1
      exact Or.inl hgop
    · rcases List.mem_cons.mp h1 with h2 | h2
      · subst h2
        exact Or.inr hgnp
      · simp at h2

theorem goodRange_spans {ru : Rule} {r : Pair} (hG : GoodRange ru r) {s : List Char}
    (hs : startSpan r = some s ∨ linesSpan r = some s) :
    s ≠ [] ∧ (∀ c ∈ s, c.isDigit = true) := by
  rcases hG with ⟨hpeq, hne, hall⟩ | ⟨s', ls', hpeq, hs'ne, hs'd, hls'ne, hls'd⟩
  · rcases hs with hs | hs
    · unfold startSpan at hs
      rw [hpeq] at hs
      dsimp only [Pair.inner] at hs
      simp only [List.find?] at hs
      have : s = r.str := by
        simp [Pair.rule, Pair.str] at hs
        exact hs.symm
      subst this
      exact ⟨hne, fun c hc => by simpa using List.all_eq_true.mp hall c hc⟩
    · exfalso
      unfold linesSpan at hs
      rw [hpeq] at hs
      dsimp only [Pair.inner] at hs
      simp [Pair.rule] at hs
  · rcases hs with hs | hs
    · unfold startSpan at hs
      rw [hpeq] at hs
      dsimp only [Pair.inner] at hs
      have : s = s' := by
        simp [Pair.rule, Pair.str] at hs
        exact hs.symm
      subst this
      exact ⟨hs'ne, fun c hc => by simpa using List.all_eq_true.mp hs'd c hc⟩
    · unfold linesSpan at hs
      rw [hpeq] at hs
      dsimp only [Pair.inner] at hs
      have : s = ls' := by
        simp [Pair.rule, Pair.str] at hs
        exact hs.symm
      subst this
      exact ⟨hls'ne, fun c hc => by simpa using List.all_eq_true.mp hls'd c hc⟩

/-- C1 counterexample: the one-hunk example parses, yet whole-diff rendering
(`Display` for `Diff`) differs from the input, because `Display` for `Hunk`
emits the bare range header without the header suffix and without the line
terminator that followed it in the input. -/
theorem c1_display_counterexample :
    Diff.parse exampleSimple = .ok (diffOf exampleSimple) ∧
    exampleSimpleRendered ≠ exampleSimple :=
  ⟨rfl, by decide⟩

/-- C1 (amended): whole-diff rendering of a parse result reproduces the input
byte-for-byte when the input has no leading commit line and no delta carries a
hunk; with hunks present the rendering drops each hunk header's suffix and its
line terminator, so the original round-trip statement fails. -/
theorem c1_display_roundtrip {cs : List Char} {d : Diff} (h : Diff.parse cs = .ok d)
    (hc : d.commit = none) (hz : ∀ δ ∈ d.deltas, δ.hunks = []) :
    Diff.displayString d = cs := by
  obtain ⟨dps, hgood, hfa, _, hjoin⟩ := parse_ok_facts h
  unfold Diff.displayString
  rw [join_display_eq hfa hgood hz]
  exact hjoin hc

/-- C1 witness: the hunkless example renders back to itself. -/
theorem c1_display_roundtrip_witness :
    Diff.displayString (diffOf exampleNoHunk) = exampleNoHunk :=
  @c1_display_roundtrip exampleNoHunk (diffOf exampleNoHunk) rfl rfl (by decide)

/-- C2: `Hunk::format_patch` is exactly the file header, the canonical range
header "@@ -old_start,old_lines +new_start,new_lines @@", the header suffix,
one line terminator, and the verbatim content, in that order. -/
theorem c2_format_patch (h : Hunk) : h.format_patch =
    h.file_header ++
    ("@@ -".data ++ natToStr h.old_start ++ ",".data ++ natToStr h.old_lines ++
      " +".data ++ natToStr h.new_start ++ ",".data ++ natToStr h.new_lines ++ " @@".data) ++
    h.header_suffix ++ "\n".data ++ h.content := by
  unfold Hunk.format_patch Hunk.header Hunk.display_header
  simp [List.append_assoc]

/-- C3: every hunk of a parsed delta reparses from its standalone patch text
to a one-delta, one-hunk diff whose hunk is field-equal to the original. -/
theorem c3_hunk_reparse {cs : List Char} {d : Diff} (h : Diff.parse cs = .ok d)
    {δ : Delta} (hδ : δ ∈ d.deltas) {hk : Hunk} (hh : hk ∈ δ.hunks) :
    Diff.parse hk.format_patch =
      .ok ⟨none, [⟨hk.file_header, hk.old_file, hk.new_file, [hk]⟩]⟩ :=
  format_patch_reparse (parse_hunk_facts h hδ hh).2.2.2

/-- C3 witness: the hunk of the one-hunk example reparses from its patch. -/
theorem c3_hunk_reparse_witness :
    Diff.parse (hunkAt exampleSimple 0 0).format_patch =
      .ok ⟨none, [⟨(hunkAt exampleSimple 0 0).file_header, (hunkAt exampleSimple 0 0).old_file,
        (hunkAt exampleSimple 0 0).new_file, [hunkAt exampleSimple 0 0]⟩]⟩ :=
  @c3_hunk_reparse exampleSimple (diffOf exampleSimple) rfl (deltaAt exampleSimple 0)
    (by decide) (hunkAt exampleSimple 0 0) (by decide)

/-- C4 counterexample: a range start of 4294967296 is grammar-accepted (the
digit span has no length bound) but overflows `u32`, so the walker reaches the
"Error parsing range start" failure on grammar-accepted input. -/
theorem c4_overflow_counterexample :
    DiffParserParse exampleOverflow = .ok (pairsOf exampleOverflow) ∧
    Diff.parse exampleOverflow = .error "Error parsing range start" :=
  ⟨rfl, rfl⟩

/-- C4 (amended): the numeric-span conversions of `parse_range` succeed on
every grammar-produced range span whose value fits in a `u32`; the grammar
only guarantees the spans are nonempty and digit-only, so conversion can
still fail by overflow. -/
theorem c4_range_spans_parse {cs : List Char} {pairs : List Pair} {r : Pair} {s : List Char}
    (hp : DiffParserParse cs = .ok pairs) (hr : r ∈ rangePairsOf pairs)
    (hs : startSpan r = some s ∨ linesSpan r = some s)
    (hb : digitsToNat s < 4294967296) :
    parseU32 s = some (digitsToNat s) := by
  rcases rangePairs_good hp r hr with hg | hg
  · obtain ⟨hne, hd⟩ := goodRange_spans hg hs
    exact parseU32_digits hne hd hb
  · obtain ⟨hne, hd⟩ := goodRange_spans hg hs
    exact parseU32_digits hne hd hb

/-- C4 witness: the start span of the first range of the one-hunk example. -/
theorem c4_range_spans_parse_witness :
    parseU32 ("1".data) = some (digitsToNat ("1".data)) :=
  @c4_range_spans_parse exampleSimple (pairsOf exampleSimple)
    (Pair.mk .old_range ("1,1".data) [Pair.mk .start ("1".data) [], Pair.mk .lines ("1".data) []])
    ("1".data) rfl
    (by rw [show rangePairsOf (pairsOf exampleSimple) =
        Pair.mk .old_range ("1,1".data) [Pair.mk .start ("1".data) [],
          Pair.mk .lines ("1".data) []] :: (rangePairsOf (pairsOf exampleSimple)).tail from rfl]
        exact List.mem_cons_self _ _)
    (Or.inl rfl) (by decide)

/-- C5: a successful parse yields one `Delta` per grammar-recognized diff
block, in order, and each delta holds exactly as many hunks as its block's
hunk nodes, in order (stated as a `Forall₂` over the diff nodes of the token
tree paired with the deltas in sequence). -/
theorem c5_cardinality {cs : List Char} {pairs : List Pair} {d : Diff}
    (hp : DiffParserParse cs = .ok pairs) (h : Diff.parse cs = .ok d) :
    d.deltas.length = (pairs.filter (fun p => p.rule == .diff)).length ∧
    List.Forall₂ (fun p δ => δ.hunks.length =
      (p.inner.filter (fun q => q.rule == .hunk)).length)
      (pairs.filter (fun p => p.rule == .diff)) d.deltas := by
  obtain ⟨dps, hfilter, hgood, hcase⟩ := filter_diff_pairs hp
  unfold Diff.parse at h
  rw [hp] at h
  dsimp only at h
  rw [hfilter]
  rcases hcase with ⟨_, hpairs⟩ | ⟨_, hpairs⟩
  · rw [hpairs] at h
    obtain ⟨_, δs, hds, hfa⟩ := parse_top_ok dps none [] d h
      (fun q hq => GoodDiff_rule (hgood q hq))
    simp only [List.nil_append] at hds
    rw [hds]
    exact ⟨(List.Forall₂.length_eq hfa).symm, forall₂_counts hfa hgood⟩
  · rw [hpairs] at h
    unfold parse_top at h
    dsimp only [Pair.rule] at h
    obtain ⟨_, δs, hds, hfa⟩ := parse_top_ok _ _ [] d h
      (fun q hq => GoodDiff_rule (hgood q hq))
    simp only [List.nil_append] at hds
    rw [hds]
    exact ⟨(List.Forall₂.length_eq hfa).symm, forall₂_counts hfa hgood⟩

set_option maxRecDepth 40000 in
/-- C5 witness: the two-delta, two-hunks-each example. -/
theorem c5_cardinality_witness :
    (diffOf exampleTwo).deltas.length =
      ((pairsOf exampleTwo).filter (fun p => p.rule == .diff)).length ∧
    List.Forall₂ (fun p δ => δ.hunks.length =
      (p.inner.filter (fun q => q.rule == .hunk)).length)
      ((pairsOf exampleTwo).filter (fun p => p.rule == .diff)) (diffOf exampleTwo).deltas :=
  @c5_cardinality exampleTwo (pairsOf exampleTwo) (diffOf exampleTwo) rfl rfl

/-- C6: a successful parse records as `commit` the first input line exactly
when the input neither starts with "diff --git" nor is empty, and no commit
value otherwise. -/
theorem c6_commit {cs : List Char} {d : Diff} (h : Diff.parse cs = .ok d) :
    d.commit = (if (startsWith gitMarker cs || cs.isEmpty) = true then none
      else some (cs.takeWhile (fun c => !(c == '\n')))) := by
  obtain ⟨_, _, _, hc, _⟩ := parse_ok_facts h
  exact hc

/-- C6 witness: the leading line of the commit example is its commit. -/
theorem c6_commit_witness :
    (diffOf exampleCommit).commit = some ("deadbeef".data) :=
  (@c6_commit exampleCommit (diffOf exampleCommit) rfl).trans (by decide)

/-- C7: whenever the grammar rejects the input, `Diff::parse` propagates that
failure as a fatal error and produces no diff value. -/
theorem c7_syntax_error {cs : List Char} {e : String} (h : DiffParserParse cs = .error e) :
    Diff.parse cs = .error e := by
  unfold Diff.parse
  rw [h]

/-- C7 witness: a hunk header missing its closing marker is a fatal error. -/
theorem c7_syntax_error_witness : Diff.parse exampleBad = .error "SyntaxError" :=
  @c7_syntax_error exampleBad "SyntaxError" rfl

/-- C8: every hunk of every delta of a successful parse carries a copy of the
owning delta's file_header, old_file and new_file. -/
theorem c8_hunk_copies {cs : List Char} {d : Diff} (h : Diff.parse cs = .ok d)
    {δ : Delta} (hδ : δ ∈ d.deltas) {hk : Hunk} (hh : hk ∈ δ.hunks) :
    hk.file_header = δ.file_header ∧ hk.old_file = δ.old_file ∧ hk.new_file = δ.new_file := by
  obtain ⟨h1, h2, h3, _⟩ := parse_hunk_facts h hδ hh
  exact ⟨h1, h2, h3⟩

/-- C8 witness: the hunk of the one-hunk example copies its delta's fields. -/
theorem c8_hunk_copies_witness :
    (hunkAt exampleSimple 0 0).file_header = (deltaAt exampleSimple 0).file_header ∧
    (hunkAt exampleSimple 0 0).old_file = (deltaAt exampleSimple 0).old_file ∧
    (hunkAt exampleSimple 0 0).new_file = (deltaAt exampleSimple 0).new_file :=
  @c8_hunk_copies exampleSimple (diffOf exampleSimple) rfl (deltaAt exampleSimple 0)
    (by decide) (hunkAt exampleSimple 0 0) (by decide)

/-- C9: parsing an input whose hunk range header is "@@ -37,13 +37,12 @@"
yields a hunk with old_start 37, old_lines 13, new_start 37, new_lines 12. -/
theorem c9_numeric :
    Diff.parse exampleC9 = .ok (diffOf exampleC9) ∧
    (hunkAt exampleC9 0 0).old_start = 37 ∧ (hunkAt exampleC9 0 0).old_lines = 13 ∧
    (hunkAt exampleC9 0 0).new_start = 37 ∧ (hunkAt exampleC9 0 0).new_lines = 12 ∧
    (diffOf exampleC9).deltas.length = 1 ∧ (deltaAt exampleC9 0).hunks.length = 1 :=
  ⟨rfl, rfl, rfl, rfl, rfl, rfl, rfl⟩

/-- C10: a per-file diff header block followed by no hunk headers parses to a
single delta with an empty hunk sequence (its file_header is the whole
block). -/
theorem c10_empty_delta :
    Diff.parse exampleNoHunk = .ok ⟨none, [⟨exampleNoHunk, "a/g".data, "b/g".data, []⟩]⟩ :=
  rfl

end GituDiff
